import Mathlib

/-!
A verification development for the TradeFlux matching engine
(`src/lib/trading-engine.ts`).

The TypeScript source is shallowly embedded: the mutable `OrderStorage` and
`TradingEngine` classes become explicit state records threaded through pure
functions.  JavaScript numbers used for quantities and prices are modelled as
`Rat` (all arithmetic performed by the engine on them is exact field
arithmetic), timestamps (`Date.now()`) as `Nat`.  Each public engine call
receives the clock value `now` read by `Date.now()` during that call (the
source may read the clock several times inside one call; all such reads
within a single call are modelled as returning the same value, which no
property below depends on).

Order/transaction id strings `order-{time}-{counter}`, `market` and
`auto-filled` are modelled by the inductive `OrderRef`; the string encoding
in the source is injective (the sentinel strings do not begin with `order-`
and a decimal rendering of the two numbers is recoverable from the string),
so this is a faithful abstraction.

JavaScript exceptions are modelled by returning an error value together with
the state at the moment of the throw.  JavaScript `Array.prototype.sort`
(stable since ES2019) with a consistent comparator is modelled by
`List.insertionSort`, which is also stable, with the `≤`-relation of the
comparator; two stable sorts agree on every input.

One aliasing point needs care: the book stores references to the very order
objects the matcher mutates, so a mutation of an order is visible in the
book even when `updateOrder` is not called.  Every such mutation site is
followed here by an explicit write-through of the final value
(`OrderStorage.writeThrough`), which is observationally equivalent: between
a mutation and the corresponding write-through the source only ever queries
the book for the *existence* of an order id (`findOrderById`), never for the
mutated fields.
-/

namespace StockTrade

/-- Maximum number of tickers supported (`MAX_TICKERS`). -/
def MAX_TICKERS : Nat := 1024

/-- Order side, `'buy' | 'sell'` in the source. -/
inductive OrderType where
  | buy
  | sell
deriving DecidableEq, Repr

/-- Order status, `'pending' | 'partial' | 'matched' | 'canceled'` in the
source.  `'partial'` is rendered `partialFill` because `partial` is a Lean
keyword; the spec calls these states `PartiallyFilled` and (for `matched`)
`Filled`. -/
inductive OrderStatus where
  | pending
  | partialFill
  | matched
  | canceled
deriving DecidableEq, Repr

/-- An order-reference string: either a real order id `order-{time}-{ctr}`
or one of the two sentinel strings `'market'` / `'auto-filled'`. -/
inductive OrderRef where
  | ord (time counter : Nat)
  | market
  | autoFilled
deriving DecidableEq, Repr

/-- The `Order` record of the source. -/
structure Order where
  id : OrderRef
  type : OrderType
  tickerSymbol : String
  quantity : Rat
  price : Rat
  timestamp : Nat
  status : OrderStatus
  remainingQuantity : Rat
deriving DecidableEq, Repr

/-- The `Transaction` record of the source; `id` models `tx-{time}-{ctr}`. -/
structure Transaction where
  id : Nat × Nat
  buyOrderId : OrderRef
  sellOrderId : OrderRef
  tickerSymbol : String
  quantity : Rat
  price : Rat
  timestamp : Nat
deriving DecidableEq, Repr

/-- The `PortfolioPosition` record of the source. -/
structure PortfolioPosition where
  symbol : String
  shares : Rat
  averageBuyPrice : Rat
  currentValue : Rat
deriving DecidableEq, Repr

/-- State of the `OrderStorage` class.  The two fixed `Array(MAX_TICKERS)`
arrays of per-ticker order lists are modelled as functions from the index;
indices ever used are below `MAX_TICKERS`. -/
structure OrderStorage where
  buyOrders : Nat → List Order
  sellOrders : Nat → List Order
  tickerToIndex : List (String × Nat)
  nextIndex : Nat

/-- State of the `TradingEngine` class.  The listener list is omitted:
`notifyListeners` only invokes external callbacks and mutates no engine
state relevant to any claim. -/
structure EngineState where
  storage : OrderStorage
  transactions : List Transaction
  orderCounter : Nat
  transactionCounter : Nat
  portfolioPositions : String → Option PortfolioPosition

/-- The buy-side comparator `(a, b) => b.price !== a.price ? b.price - a.price
: a.timestamp - b.timestamp` as the relation "a may come before b". -/
def bidLE (a b : Order) : Prop :=
  if a.price = b.price then a.timestamp ≤ b.timestamp else b.price < a.price

/-- The sell-side comparator `(a, b) => a.price !== b.price ? a.price - b.price
: a.timestamp - b.timestamp` as the relation "a may come before b". -/
def askLE (a b : Order) : Prop :=
  if a.price = b.price then a.timestamp ≤ b.timestamp else a.price < b.price

instance : DecidableRel bidLE := fun a b => by unfold bidLE; infer_instance

instance : DecidableRel askLE := fun a b => by unfold askLE; infer_instance

instance : IsTotal Order bidLE := by
  constructor
  intro a b
  unfold bidLE
  rcases eq_or_ne a.price b.price with h | h
  · simp [h, Nat.le_total a.timestamp b.timestamp]
  · simp [h, h.symm, h.lt_or_lt.symm]

instance : IsTrans Order bidLE := by
  constructor
  intro a b c hab hbc
  unfold bidLE at *
  rcases eq_or_ne a.price b.price with h1 | h1 <;> rcases eq_or_ne b.price c.price with h2 | h2
  · rw [if_pos h1] at hab
    rw [if_pos h2] at hbc
    rw [if_pos (h1.trans h2)]
    exact le_trans hab hbc
  · rw [if_neg h2] at hbc
    rw [h1]
    rw [if_neg (ne_of_gt hbc)]
    exact hbc
  · rw [if_neg h1] at hab
    rw [← h2]
    rw [if_neg h1]
    exact hab
  · rw [if_neg h1] at hab
    rw [if_neg h2] at hbc
    have := lt_trans hbc hab
    rw [if_neg (ne_of_gt this)]
    exact this

instance : IsTotal Order askLE := by
  constructor
  intro a b
  unfold askLE
  rcases eq_or_ne a.price b.price with h | h
  · simp [h, Nat.le_total a.timestamp b.timestamp]
  · simp [h, h.symm, h.lt_or_lt]

instance : IsTrans Order askLE := by
  constructor
  intro a b c hab hbc
  unfold askLE at *
  rcases eq_or_ne a.price b.price with h1 | h1 <;> rcases eq_or_ne b.price c.price with h2 | h2
  · rw [if_pos h1] at hab
    rw [if_pos h2] at hbc
    rw [if_pos (h1.trans h2)]
    exact le_trans hab hbc
  · rw [if_neg h2] at hbc
    rw [h1]
    rw [if_neg (ne_of_lt hbc)]
    exact hbc
  · rw [if_neg h1] at hab
    rw [← h2]
    rw [if_neg h1]
    exact hab
  · rw [if_neg h1] at hab
    rw [if_neg h2] at hbc
    have := lt_trans hab hbc
    rw [if_neg (ne_of_lt this)]
    exact this

/-- The linear scan of `tickerToIndex` in `getTickerIndex`. -/
def lookupTicker : List (String × Nat) → String → Option Nat
  | [], _ => none
  | (sym, i) :: rest, s => if sym = s then some i else lookupTicker rest s

namespace OrderStorage

/-- `OrderStorage.getTickerIndex`: return the cached slot for a symbol, or
assign the next free slot, or throw once `MAX_TICKERS` symbols exist.  The
storage after the call is returned alongside (registration mutates it). -/
def getTickerIndex (st : OrderStorage) (symbol : String) : Except Unit Nat × OrderStorage :=
  match lookupTicker st.tickerToIndex symbol with
  | some i => (.ok i, st)
  | none =>
    if st.nextIndex < MAX_TICKERS then
      (.ok st.nextIndex,
        { st with
          tickerToIndex := st.tickerToIndex ++ [(symbol, st.nextIndex)],
          nextIndex := st.nextIndex + 1 })
    else (.error (), st)

/-- Point update of the buy-side array. -/
def setBuyList (st : OrderStorage) (i : Nat) (l : List Order) : OrderStorage :=
  { st with buyOrders := fun j => if j = i then l else st.buyOrders j }

/-- Point update of the sell-side array. -/
def setSellList (st : OrderStorage) (i : Nat) (l : List Order) : OrderStorage :=
  { st with sellOrders := fun j => if j = i then l else st.sellOrders j }

/-- `OrderStorage.addOrder`: push the order onto its side's list for its
ticker, then re-sort that list with the side's comparator.  The `getTickerIndex`
call may throw (registry full); the throw happens before any mutation. -/
def addOrder (st : OrderStorage) (order : Order) : Except Unit OrderStorage :=
  match st.getTickerIndex order.tickerSymbol with
  | (.error _, _) => .error ()
  | (.ok index, st1) =>
    match order.type with
    | .buy => .ok (st1.setBuyList index (List.insertionSort bidLE (st1.buyOrders index ++ [order])))
    | .sell => .ok (st1.setSellList index (List.insertionSort askLE (st1.sellOrders index ++ [order])))

/-- `OrderStorage.getBuyOrders`: `try { return this.buyOrders[getTickerIndex(symbol)] }
catch { return [] }`.  Note the frame effect: an unknown symbol gets registered. -/
def getBuyOrders (st : OrderStorage) (symbol : String) : List Order × OrderStorage :=
  match st.getTickerIndex symbol with
  | (.ok i, st1) => (st1.buyOrders i, st1)
  | (.error _, st1) => ([], st1)

/-- `OrderStorage.getSellOrders`, same shape as `getBuyOrders`. -/
def getSellOrders (st : OrderStorage) (symbol : String) : List Order × OrderStorage :=
  match st.getTickerIndex symbol with
  | (.ok i, st1) => (st1.sellOrders i, st1)
  | (.error _, st1) => ([], st1)

end OrderStorage

/-- The in-place replacement loop shared by `updateOrder` (replace the first
entry with the given order's id, then `break`). -/
def replaceById : List Order → Order → List Order
  | [], _ => []
  | o :: rest, order => if o.id = order.id then order :: rest else o :: replaceById rest order

namespace OrderStorage

/-- `OrderStorage.updateOrder`: look up (or register) the ticker's slot and
replace the stored order with matching id on the order's own side. -/
def updateOrder (st : OrderStorage) (order : Order) : Except Unit OrderStorage :=
  match st.getTickerIndex order.tickerSymbol with
  | (.error _, _) => .error ()
  | (.ok i, st1) =>
    match order.type with
    | .buy => .ok (st1.setBuyList i (replaceById (st1.buyOrders i) order))
    | .sell => .ok (st1.setSellList i (replaceById (st1.sellOrders i) order))

/-- `OrderStorage.getAllTickers`. -/
def getAllTickers (st : OrderStorage) : List String := st.tickerToIndex.map Prod.fst

/-- Aliasing write-through: in the source the book stores the very object the
matcher mutates, so the final value of a mutated order is visible in the book
even on paths where `updateOrder` is not called.  This helper realises that
visibility in the functional model: it replaces the entry with the order's id
in the list the order resides in (the list of its registered ticker slot and
its own side) without the get-or-register behaviour of `updateOrder`. -/
def writeThrough (st : OrderStorage) (order : Order) : OrderStorage :=
  match lookupTicker st.tickerToIndex order.tickerSymbol with
  | none => st
  | some i =>
    match order.type with
    | .buy => st.setBuyList i (replaceById (st.buyOrders i) order)
    | .sell => st.setSellList i (replaceById (st.sellOrders i) order)

end OrderStorage

namespace TradingEngine

/-- The linear id search inside `findOrderById`'s per-ticker loops. -/
def findInList : List Order → OrderRef → Option Order
  | [], _ => none
  | o :: rest, oid => if o.id = oid then some o else findInList rest oid

/-- The ticker loop of `findOrderById`, threading the storage through the
`getBuyOrders`/`getSellOrders` calls it makes. -/
def findLoop : OrderStorage → List String → OrderRef → Option Order × OrderStorage
  | st, [], _ => (none, st)
  | st, t :: rest, oid =>
    let res := st.getBuyOrders t
    match findInList res.1 oid with
    | some o => (some o, res.2)
    | none =>
      let res2 := res.2.getSellOrders t
      match findInList res2.1 oid with
      | some o => (some o, res2.2)
      | none => findLoop res2.2 rest oid

/-- `TradingEngine.findOrderById`: sentinel ids resolve to no order; otherwise
scan every registered ticker's buy then sell list. -/
def findOrderById (st : OrderStorage) (orderId : OrderRef) : Option Order × OrderStorage :=
  if orderId = .market ∨ orderId = .autoFilled then (none, st)
  else findLoop st st.getAllTickers orderId

/-- `TradingEngine.isBuyTransaction`: `'auto-filled'` seller means buy,
`'market'` buyer means sell, otherwise resolve the buy then the sell
reference against the books (the unresolvable fallback returns `false`). -/
def isBuyTransaction (st : OrderStorage) (t : Transaction) : Bool × OrderStorage :=
  if t.sellOrderId = .autoFilled then (true, st)
  else if t.buyOrderId = .market then (false, st)
  else
    match findOrderById st t.buyOrderId with
    | (some _, st1) => (true, st1)
    | (none, st1) =>
      match findOrderById st1 t.sellOrderId with
      | (some _, st2) => (false, st2)
      | (none, st2) => (false, st2)

/-- `TradingEngine.updatePortfolio`.  A missing position is first created
with `shares = 0`, `averageBuyPrice = 0`, `currentValue = price`; a buy
re-averages the cost and adds shares; a sell removes shares (deleting the
position at `shares <= 0`); finally `currentValue` is set to the transaction
price whenever the position still exists. -/
def updatePortfolio (s : EngineState) (t : Transaction) : EngineState :=
  let positions0 : String → Option PortfolioPosition :=
    match s.portfolioPositions t.tickerSymbol with
    | some _ => s.portfolioPositions
    | none => fun x =>
        if x = t.tickerSymbol then
          some { symbol := t.tickerSymbol, shares := 0, averageBuyPrice := 0, currentValue := t.price }
        else s.portfolioPositions x
  let position : PortfolioPosition :=
    match positions0 t.tickerSymbol with
    | some p => p
    | none => { symbol := t.tickerSymbol, shares := 0, averageBuyPrice := 0, currentValue := t.price }
  let buyRes := isBuyTransaction s.storage t
  let positions1 : String → Option PortfolioPosition :=
    if buyRes.1 then
      let newShares := position.shares + t.quantity
      fun x =>
        if x = t.tickerSymbol then
          some { position with
                 averageBuyPrice :=
                   (position.shares * position.averageBuyPrice + t.quantity * t.price) / newShares,
                 shares := newShares }
        else positions0 x
    else
      let shares2 := position.shares - t.quantity
      if shares2 ≤ 0 then fun x => if x = t.tickerSymbol then none else positions0 x
      else fun x =>
        if x = t.tickerSymbol then some { position with shares := shares2 } else positions0 x
  let positions2 : String → Option PortfolioPosition :=
    match positions1 t.tickerSymbol with
    | some p =>
      fun x => if x = t.tickerSymbol then some { p with currentValue := t.price } else positions1 x
    | none => positions1
  { s with storage := buyRes.2, portfolioPositions := positions2 }

/-- Result of `matchOrder` (and of its loop): the final value of the incoming
order object, the engine state, the `newTransactions` batch, the `orderFilled`
flag, and whether an exception escaped (`err`). -/
structure MatchRes where
  order : Order
  state : EngineState
  txs : List Transaction
  filled : Bool
  err : Bool

/-- The crossing price: `oppositeOrder.timestamp < order.timestamp ?
oppositeOrder.price : order.price`. -/
def transactionPrice (order opp : Order) : Rat :=
  if opp.timestamp < order.timestamp then opp.price else order.price

/-- The price test of the matcher: a buy crosses at `order.price >= opp.price`,
a sell at `order.price <= opp.price`. -/
def priceCrosses (order opp : Order) : Bool :=
  match order.type with
  | .buy => decide (opp.price ≤ order.price)
  | .sell => decide (order.price ≤ opp.price)

/-- The status assignment after a crossing decrements an order's remaining
quantity: `matched` when it reached zero, `partial` otherwise. -/
def bumpStatus (o : Order) : Order :=
  if o.remainingQuantity = (0 : Rat) then { o with status := .matched }
  else { o with status := .partialFill }

/-- The transaction built for one crossing (`ctr` is the engine's running
transaction counter consumed by `generateTransactionId`). -/
def crossTransaction (now : Nat) (order opp : Order) (ctr : Nat) : Transaction :=
  { id := (now, ctr),
    buyOrderId := if order.type = .buy then order.id else opp.id,
    sellOrderId := if order.type = .sell then order.id else opp.id,
    tickerSymbol := order.tickerSymbol,
    quantity := min order.remainingQuantity opp.remainingQuantity,
    price := transactionPrice order opp,
    timestamp := now }

/-- The `for (const oppositeOrder of ordersToProcess)` loop of
`TradingEngine.matchOrder`, iterating over the snapshot of the opposite book
taken at entry.  Each iteration reads the snapshot element, which equals the
current book entry for that id (each entry is visited at most once and ids
are unique in a book list in every state the engine produces). -/
def matchLoop (now : Nat) : List Order → Order → EngineState → List Transaction → MatchRes
  | [], order, s, acc => ⟨order, s, acc, false, false⟩
  | opp :: rest, order, s, acc =>
    if opp.status = .matched ∨ opp.status = .canceled ∨ opp.remainingQuantity ≤ 0 then
      matchLoop now rest order s acc
    else if priceCrosses order opp then
      let matchedQuantity := min order.remainingQuantity opp.remainingQuantity
      let transaction := crossTransaction now order opp s.transactionCounter
      let s1 := { s with transactionCounter := s.transactionCounter + 1 }
      let s2 := updatePortfolio s1 transaction
      let order1 := { order with remainingQuantity := order.remainingQuantity - matchedQuantity }
      let opp1 := { opp with remainingQuantity := opp.remainingQuantity - matchedQuantity }
      let order2 := bumpStatus order1
      let filled : Bool := decide (order1.remainingQuantity = (0 : Rat))
      let opp2 := bumpStatus opp1
      match s2.storage.updateOrder opp2 with
      | .error _ => ⟨order2, s2, acc, filled, true⟩
      | .ok st =>
        let s3 := { s2 with storage := st, transactions := s2.transactions ++ [transaction] }
        if filled then ⟨order2, s3, acc ++ [transaction], true, false⟩
        else matchLoop now rest order2 s3 (acc ++ [transaction])
    else
      matchLoop now rest order s acc

/-- `TradingEngine.matchOrder`.  After the loop the source persists the
incoming order back when it still has remaining quantity; on the other paths
the book already holds the mutated object (aliasing), modelled by
`writeThrough`. -/
def matchOrder (s : EngineState) (order : Order) (now : Nat) : MatchRes :=
  let oppRes :=
    if order.type = .buy then OrderStorage.getSellOrders s.storage order.tickerSymbol
    else OrderStorage.getBuyOrders s.storage order.tickerSymbol
  let s0 := { s with storage := oppRes.2 }
  if oppRes.1 = [] then ⟨order, s0, [], false, false⟩
  else
    let r := matchLoop now oppRes.1 order s0 []
    if r.err then
      { r with state := { r.state with storage := r.state.storage.writeThrough r.order } }
    else if r.filled = false ∧ 0 < r.order.remainingQuantity then
      match r.state.storage.updateOrder r.order with
      | .error _ => { r with err := true }
      | .ok st => { r with state := { r.state with storage := st } }
    else
      { r with state := { r.state with storage := r.state.storage.writeThrough r.order } }

/-- The error taxonomy of the spec for the exceptions `addOrder` can throw. -/
inductive EngineError where
  | invalidOrderParameters
  | insufficientShares
  | capacityExceeded
deriving DecidableEq, Repr

/-- The validation test `!tickerSymbol.trim()`: true exactly when the symbol
is empty or consists solely of whitespace (trimming yields the empty string
precisely for such strings).  Stated on the character list so that it
computes structurally. -/
def blankSymbol (tickerSymbol : String) : Bool :=
  tickerSymbol.data.all Char.isWhitespace

/-- The order object `addOrder` creates after validation. -/
def newOrderOf (s : EngineState) (type : OrderType) (tickerSymbol : String)
    (quantity price : Rat) (now : Nat) : Order :=
  { id := .ord now s.orderCounter,
    type := type,
    tickerSymbol := tickerSymbol,
    quantity := quantity,
    price := price,
    timestamp := now,
    status := .pending,
    remainingQuantity := quantity }

/-- The sell-validation test `!position || position.shares < quantity`. -/
def insufficientFor (s : EngineState) (symbol : String) (quantity : Rat) : Bool :=
  match s.portfolioPositions symbol with
  | none => true
  | some p => decide (p.shares < quantity)

/-- Shares currently held for a symbol (`position?.shares || 0`). -/
def sharesOf (s : EngineState) (symbol : String) : Rat :=
  match s.portfolioPositions symbol with
  | some p => p.shares
  | none => 0

/-- The engine state `addOrder` reaches right after inserting the new order
into the book: order counter bumped, storage extended. -/
def midState (s : EngineState) (st : OrderStorage) : EngineState :=
  { s with storage := st, orderCounter := s.orderCounter + 1 }

/-- `TradingEngine.addOrder`: validation, order creation, book insertion,
matching, and the synthetic-liquidity fallback when matching produced no
transactions.  A thrown exception is returned as the error together with the
state at the throw. -/
def addOrder (s : EngineState) (type : OrderType) (tickerSymbol : String)
    (quantity price : Rat) (now : Nat) : Except EngineError Order × EngineState :=
  if quantity ≤ 0 then (.error .invalidOrderParameters, s)
  else if price ≤ 0 then (.error .invalidOrderParameters, s)
  else if blankSymbol tickerSymbol = true then (.error .invalidOrderParameters, s)
  else if type = .sell ∧ insufficientFor s tickerSymbol quantity = true then
    (.error .insufficientShares, s)
  else
    let order := newOrderOf s type tickerSymbol quantity price now
    match OrderStorage.addOrder s.storage order with
    | .error _ => (.error .capacityExceeded, { s with orderCounter := s.orderCounter + 1 })
    | .ok st =>
      let r := matchOrder (midState s st) order now
      if r.err then (.error .capacityExceeded, r.state)
      else if type = .buy ∧ r.txs = [] then
        let syntheticTransaction : Transaction :=
          { id := (now, r.state.transactionCounter),
            buyOrderId := r.order.id,
            sellOrderId := .autoFilled,
            tickerSymbol := r.order.tickerSymbol,
            quantity := r.order.quantity,
            price := r.order.price,
            timestamp := now }
        let s5 := updatePortfolio { r.state with transactionCounter := r.state.transactionCounter + 1 }
          syntheticTransaction
        let s6 := { s5 with transactions := s5.transactions ++ [syntheticTransaction] }
        let order2 := { r.order with status := .matched, remainingQuantity := 0 }
        match s6.storage.updateOrder order2 with
        | .error _ => (.error .capacityExceeded, s6)
        | .ok st2 => (.ok order2, { s6 with storage := st2 })
      else if type = .sell ∧ r.txs = [] then
        let sellTransaction : Transaction :=
          { id := (now, r.state.transactionCounter),
            buyOrderId := .market,
            sellOrderId := r.order.id,
            tickerSymbol := r.order.tickerSymbol,
            quantity := r.order.quantity,
            price := r.order.price,
            timestamp := now }
        let s5 := updatePortfolio { r.state with transactionCounter := r.state.transactionCounter + 1 }
          sellTransaction
        let s6 := { s5 with transactions := s5.transactions ++ [sellTransaction] }
        let order2 := { r.order with status := .matched, remainingQuantity := 0 }
        match s6.storage.updateOrder order2 with
        | .error _ => (.error .capacityExceeded, s6)
        | .ok st2 => (.ok order2, { s6 with storage := st2 })
      else (.ok r.order, r.state)

/-- The relation "a may precede b" of the comparator
`(a, b) => b.timestamp - a.timestamp` used by `getRecentTransactions`. -/
def txDescLE (a b : Transaction) : Prop := b.timestamp ≤ a.timestamp

instance : DecidableRel txDescLE := fun a b => by unfold txDescLE; infer_instance

instance : IsTotal Transaction txDescLE :=
  ⟨fun a b => (Nat.le_total b.timestamp a.timestamp).imp id id⟩

instance : IsTrans Transaction txDescLE :=
  ⟨fun _ _ _ hab hbc => le_trans hbc hab⟩

/-- `TradingEngine.getRecentTransactions`: copy, stable sort by timestamp
descending, `slice(0, count)`. -/
def getRecentTransactions (s : EngineState) (count : Nat) : List Transaction :=
  (List.insertionSort txDescLE s.transactions).take count

/-- `TradingEngine.getBuyOrders` (delegates to storage). -/
def getBuyOrders (s : EngineState) (tickerSymbol : String) : List Order × EngineState :=
  let res := OrderStorage.getBuyOrders s.storage tickerSymbol
  (res.1, { s with storage := res.2 })

/-- `TradingEngine.getSellOrders` (delegates to storage). -/
def getSellOrders (s : EngineState) (tickerSymbol : String) : List Order × EngineState :=
  let res := OrderStorage.getSellOrders s.storage tickerSymbol
  (res.1, { s with storage := res.2 })

end TradingEngine

/-- The freshly constructed `OrderStorage`. -/
def initialStorage : OrderStorage :=
  { buyOrders := fun _ => [],
    sellOrders := fun _ => [],
    tickerToIndex := [],
    nextIndex := 0 }

/-- The freshly constructed singleton `TradingEngine`. -/
def initialState : EngineState :=
  { storage := initialStorage,
    transactions := [],
    orderCounter := 0,
    transactionCounter := 0,
    portfolioPositions := fun _ => none }

/-- The state-mutating operations of the engine's public surface.  The pure
queries (`getPortfolio`, `getTransactions`, `getRecentTransactions`,
`getAvailableTickers`, listener management) read state without changing any
component the invariants below speak about. -/
inductive EngineOp where
  | submit (type : OrderType) (tickerSymbol : String) (quantity price : Rat) (now : Nat)
  | queryBuy (tickerSymbol : String)
  | querySell (tickerSymbol : String)

/-- Applying one public operation to the engine state (for a failed
submission this is the state at the throw). -/
def applyOp (s : EngineState) : EngineOp → EngineState
  | .submit type sym q p now => (TradingEngine.addOrder s type sym q p now).2
  | .queryBuy sym => (TradingEngine.getBuyOrders s sym).2
  | .querySell sym => (TradingEngine.getSellOrders s sym).2

/-- Running a sequence of public operations from a state. -/
def runOps (s : EngineState) : List EngineOp → EngineState
  | [] => s
  | op :: ops => runOps (applyOp s op) ops

/-- The engine states reachable from the freshly constructed engine through
the public interface. -/
def Reachable (s : EngineState) : Prop := ∃ ops, s = runOps initialState ops

/-! ### Derived definitions used by statements and invariants -/

/-- Registering a sequence of symbols one after the other through
`getTickerIndex` (dropping the returned slots). -/
def registerAll (st : OrderStorage) : List String → OrderStorage
  | [] => st
  | s :: rest => registerAll (st.getTickerIndex s).2 rest

/-- The registry entries produced by registering fresh symbols starting at
slot `n`. -/
def withSlots (n : Nat) : List String → List (String × Nat)
  | [] => []
  | s :: rest => (s, n) :: withSlots (n + 1) rest

/-- The position `updatePortfolio` works on: the stored one, or the freshly
initialised one when the symbol has no position yet. -/
def positionOrNew (s : EngineState) (t : Transaction) : PortfolioPosition :=
  match s.portfolioPositions t.tickerSymbol with
  | some p => p
  | none => { symbol := t.tickerSymbol, shares := 0, averageBuyPrice := 0, currentValue := t.price }

/-- The fields of an order that the matcher never mutates (everything except
`status` and `remainingQuantity`). -/
def orderCore (o : Order) : OrderRef × OrderType × String × Rat × Rat × Nat :=
  (o.id, o.type, o.tickerSymbol, o.quantity, o.price, o.timestamp)

/-- "Same order, remaining quantity not increased". -/
def remLE (o1 o2 : Order) : Prop :=
  orderCore o1 = orderCore o2 ∧ o1.remainingQuantity ≤ o2.remainingQuantity

/-- The per-order lifecycle invariant of the spec:
`0 <= remainingQuantity <= quantity`, `Filled ⇔ remainingQuantity == 0`
(`matched` is the source's name for `Filled`), and `PartiallyFilled ⇒
0 < remainingQuantity < quantity`. -/
def OrderOkProp (o : Order) : Prop :=
  0 ≤ o.remainingQuantity ∧ o.remainingQuantity ≤ o.quantity ∧
  (o.status = .matched ↔ o.remainingQuantity = 0) ∧
  (o.status = .partialFill → 0 < o.remainingQuantity ∧ o.remainingQuantity < o.quantity)

/-- Membership of an order value in some list of the order book. -/
def InBooks (st : OrderStorage) (o : Order) : Prop :=
  ∃ i, o ∈ st.buyOrders i ∨ o ∈ st.sellOrders i

/-- The storage/engine invariant maintained by every public operation.
`ctr` is the engine's order counter; ids of book orders are always built
from earlier counter values, which makes fresh ids unique. -/
structure StorageInv (st : OrderStorage) (ctr : Nat) : Prop where
  regIdx : st.tickerToIndex.map Prod.snd = List.range st.nextIndex
  highBuy : ∀ i, st.nextIndex ≤ i → st.buyOrders i = []
  highSell : ∀ i, st.nextIndex ≤ i → st.sellOrders i = []
  sortedBuy : ∀ i, List.Sorted bidLE (st.buyOrders i)
  sortedSell : ∀ i, List.Sorted askLE (st.sellOrders i)
  nodupBuy : ∀ i, ((st.buyOrders i).map Order.id).Nodup
  nodupSell : ∀ i, ((st.sellOrders i).map Order.id).Nodup
  cohBuy : ∀ i, ∀ o ∈ st.buyOrders i,
    o.type = .buy ∧ lookupTicker st.tickerToIndex o.tickerSymbol = some i
  cohSell : ∀ i, ∀ o ∈ st.sellOrders i,
    o.type = .sell ∧ lookupTicker st.tickerToIndex o.tickerSymbol = some i
  uniq : ∀ o1 o2, InBooks st o1 → InBooks st o2 → o1.id = o2.id → o1 = o2
  fresh : ∀ o, InBooks st o → ∃ t c, o.id = .ord t c ∧ c < ctr
  ordOk : ∀ o, InBooks st o → OrderOkProp o

/-- The engine-level invariant. -/
def EngineInv (s : EngineState) : Prop := StorageInv s.storage s.orderCounter

/-- Remaining quantities never increase from `s1` to `s2` for any order id
present in both books. -/
def RemMono (s1 s2 : EngineState) : Prop :=
  ∀ o2, InBooks s2.storage o2 → ∀ o1, InBooks s1.storage o1 →
    o1.id = o2.id → o2.remainingQuantity ≤ o1.remainingQuantity

/-- Tagging list elements with their positions starting at `n` (insertion
order of the transaction log). -/
def enumFrom {α : Type} (n : Nat) : List α → List (Nat × α)
  | [] => []
  | x :: rest => (n, x) :: enumFrom (n + 1) rest

/-- The strict ordering the spec describes for `recent(n)`: by `occurredAt`
descending, ties broken by insertion order (earlier insertion first). -/
def recentKeyLE (a b : Nat × Transaction) : Prop :=
  b.2.timestamp < a.2.timestamp ∨ (a.2.timestamp = b.2.timestamp ∧ a.1 ≤ b.1)

instance : DecidableRel recentKeyLE := fun a b => by unfold recentKeyLE; infer_instance

instance : IsTotal (Nat × Transaction) recentKeyLE := by
  constructor
  intro a b
  unfold recentKeyLE
  rcases Nat.lt_trichotomy a.2.timestamp b.2.timestamp with h | h | h
  · exact Or.inr (Or.inl h)
  · rcases Nat.le_total a.1 b.1 with h2 | h2
    · exact Or.inl (Or.inr ⟨h, h2⟩)
    · exact Or.inr (Or.inr ⟨h.symm, h2⟩)
  · exact Or.inl (Or.inl h)

instance : IsTrans (Nat × Transaction) recentKeyLE := by
  constructor
  intro a b c hab hbc
  unfold recentKeyLE at *
  rcases hab with h1 | ⟨h1, h1i⟩ <;> rcases hbc with h2 | ⟨h2, h2i⟩
  · exact Or.inl (lt_trans h2 h1)
  · exact Or.inl (h2 ▸ h1)
  · exact Or.inl (h1 ▸ h2)
  · exact Or.inr ⟨h1.trans h2, le_trans h1i h2i⟩

/-- The arrangement of the transaction log described by the spec for
`recent(n)`: sorted by `occurredAt` descending with ties in insertion
order.  (On the position-tagged log this ordering is antisymmetric, so the
sorted arrangement is unique.) -/
def specRecentArrangement (l : List Transaction) : List Transaction :=
  (List.insertionSort recentKeyLE (enumFrom 0 l)).map Prod.snd

/-- Remaining-quantity tracking between two storages: every book entry of the
second storage is accounted for by an entry of the first storage with the
same id and at least its remaining quantity. -/
def Tracks (st1 st2 : OrderStorage) : Prop :=
  ∀ o2, InBooks st2 o2 → ∃ o1, InBooks st1 o1 ∧ o1.id = o2.id ∧
    o2.remainingQuantity ≤ o1.remainingQuantity

/-! ### Registry lemmas (claims C9 and C10) -/

theorem lookupTicker_eq_none_iff (l : List (String × Nat)) (s : String) :
    lookupTicker l s = none ↔ s ∉ l.map Prod.fst := by
  induction l with
  | nil => simp [lookupTicker]
  | cons p rest ih =>
    obtain ⟨sym, i⟩ := p
    by_cases h : sym = s
    · simp [lookupTicker, h]
    · simp only [lookupTicker, if_neg h, List.map_cons, List.mem_cons, not_or, ih]
      constructor
      · intro hn
        exact ⟨fun hs => h hs.symm, hn⟩
      · intro hm
        exact hm.2

theorem lookupTicker_append (l1 l2 : List (String × Nat)) (s : String) :
    lookupTicker (l1 ++ l2) s =
      match lookupTicker l1 s with
      | some i => some i
      | none => lookupTicker l2 s := by
  induction l1 with
  | nil => simp [lookupTicker]
  | cons p rest ih =>
    obtain ⟨sym, i⟩ := p
    by_cases h : sym = s <;> simp [lookupTicker, h, ih]

theorem lookupTicker_append_of_some (l1 l2 : List (String × Nat)) (s : String) (i : Nat)
    (h : lookupTicker l1 s = some i) : lookupTicker (l1 ++ l2) s = some i := by
  rw [lookupTicker_append, h]

theorem lookupTicker_withSlots :
    ∀ (syms : List String), syms.Nodup →
    ∀ n k, (h : k < syms.length) →
      lookupTicker (withSlots n syms) syms[k] = some (n + k) := by
  intro syms
  induction syms with
  | nil => intro _ n k h; exact absurd h (by simp)
  | cons s rest ih =>
    intro hnd n k h
    match k with
    | 0 => simp [withSlots, lookupTicker]
    | k + 1 =>
      have hk : k < rest.length := by simpa using Nat.lt_of_succ_lt_succ h
      have hs : s ≠ rest[k] := by
        intro hEq
        exact (List.nodup_cons.mp hnd).1 (hEq ▸ List.getElem_mem hk)
      have := ih (List.nodup_cons.mp hnd).2 (n + 1) k hk
      simp only [withSlots, lookupTicker, List.getElem_cons_succ]
      rw [if_neg hs, this]
      congr 1
      omega

theorem getTickerIndex_of_found (st : OrderStorage) (s : String) (i : Nat)
    (h : lookupTicker st.tickerToIndex s = some i) :
    st.getTickerIndex s = (.ok i, st) := by
  simp [OrderStorage.getTickerIndex, h]

theorem registerAll_spec :
    ∀ (syms : List String) (st : OrderStorage),
      st.nextIndex = st.tickerToIndex.length →
      (∀ x ∈ syms, lookupTicker st.tickerToIndex x = none) →
      syms.Nodup →
      st.tickerToIndex.length + syms.length ≤ MAX_TICKERS →
      (registerAll st syms).tickerToIndex = st.tickerToIndex ++ withSlots st.nextIndex syms ∧
      (registerAll st syms).nextIndex = st.nextIndex + syms.length := by
  intro syms
  induction syms with
  | nil => intro st h1 _ _ _; simp [registerAll, withSlots, h1]
  | cons s rest ih =>
    intro st h1 h2 h3 h4
    have hlt : st.nextIndex < MAX_TICKERS := by
      rw [h1]; simp only [List.length_cons] at h4; omega
    have hs : lookupTicker st.tickerToIndex s = none := h2 s (by simp)
    have hstep : (st.getTickerIndex s).2 =
        { st with tickerToIndex := st.tickerToIndex ++ [(s, st.nextIndex)],
                  nextIndex := st.nextIndex + 1 } := by
      simp [OrderStorage.getTickerIndex, hs, hlt]
    have hrest : ∀ x ∈ rest, lookupTicker (st.tickerToIndex ++ [(s, st.nextIndex)]) x = none := by
      intro x hx
      rw [lookupTicker_append, h2 x (by simp [hx])]
      have hxs : s ≠ x := by
        rintro rfl
        exact (List.nodup_cons.mp h3).1 hx
      simp [lookupTicker, hxs]
    have := ih { st with tickerToIndex := st.tickerToIndex ++ [(s, st.nextIndex)],
                         nextIndex := st.nextIndex + 1 }
      (by simp [h1]) hrest (List.nodup_cons.mp h3).2
      (by simp only [List.length_append, List.length_cons, List.length_nil] at h4 ⊢; omega)
    rw [registerAll, hstep]
    refine ⟨?_, ?_⟩
    · rw [this.1]
      simp [withSlots, h1]
    · rw [this.2]
      simp only [List.length_cons]
      omega

/-- C9, part of the supporting presentation: the registry after registering a
nodup list of at most 1024 symbols from scratch. -/
theorem registerAll_from_empty (syms : List String) (hnd : syms.Nodup)
    (hlen : syms.length ≤ MAX_TICKERS) :
    (registerAll initialStorage syms).tickerToIndex = withSlots 0 syms ∧
    (registerAll initialStorage syms).nextIndex = syms.length := by
  have := registerAll_spec syms initialStorage rfl
    (by intro x _; simp [initialStorage, lookupTicker]) hnd
    (by simpa [initialStorage] using hlen)
  simpa [initialStorage] using this

/-- C9: the symbol registry accepts the first 1024 distinct symbols; the
first occurrence of the `k`-th distinct symbol is assigned slot `k` (the
monotonic counter value at that moment); a subsequent occurrence of a
registered symbol returns its recorded slot and leaves the registry
unchanged; `getAllTickers` lists the symbols in first-registration order;
and with 1024 distinct symbols registered, a new distinct symbol makes
`getTickerIndex` throw (`CapacityExceeded`). -/
theorem withSlots_map_fst : ∀ (n : Nat) (l : List String), (withSlots n l).map Prod.fst = l := by
  intro n l
  induction l generalizing n with
  | nil => simp [withSlots]
  | cons x rest ih => simp [withSlots, ih]

theorem c9_symbol_registry (syms : List String) (hnd : syms.Nodup)
    (hlen : syms.length ≤ MAX_TICKERS) :
    ((registerAll initialStorage syms).getAllTickers = syms) ∧
    (∀ k, (h : k < syms.length) →
      ((registerAll initialStorage (syms.take k)).getTickerIndex syms[k]).1 = .ok k) ∧
    (∀ k, (h : k < syms.length) →
      (registerAll initialStorage syms).getTickerIndex syms[k] =
        (.ok k, registerAll initialStorage syms)) ∧
    (∀ s0, s0 ∉ syms → syms.length = MAX_TICKERS →
      ((registerAll initialStorage syms).getTickerIndex s0).1 = .error ()) := by
  obtain ⟨hreg, hnext⟩ := registerAll_from_empty syms hnd hlen
  refine ⟨?_, ?_, ?_, ?_⟩
  · rw [OrderStorage.getAllTickers, hreg, withSlots_map_fst]
  · intro k h
    have hklen : (syms.take k).length = k := by
      simp only [List.length_take]
      omega
    obtain ⟨hregT, hnextT⟩ := registerAll_from_empty (syms.take k)
      ((List.take_sublist k syms).nodup hnd) (by omega)
    have hnotin : lookupTicker (registerAll initialStorage (syms.take k)).tickerToIndex
        syms[k] = none := by
      rw [hregT, lookupTicker_eq_none_iff, withSlots_map_fst]
      intro hmem
      obtain ⟨j, hj, hval⟩ := List.mem_iff_getElem.mp hmem
      rw [hklen] at hj
      rw [List.getElem_take] at hval
      have : j = k := by
        have hik := hnd.getElem_inj_iff.mp hval
        exact hik
      omega
    rw [OrderStorage.getTickerIndex, hnotin]
    rw [hnextT, hklen]
    have : k < MAX_TICKERS := by omega
    simp [this]
  · intro k h
    have hfound : lookupTicker (registerAll initialStorage syms).tickerToIndex syms[k] =
        some k := by
      rw [hreg]
      have := lookupTicker_withSlots syms hnd 0 k h
      simpa using this
    exact getTickerIndex_of_found _ _ _ hfound
  · intro s0 hnot hfull
    have hnone : lookupTicker (registerAll initialStorage syms).tickerToIndex s0 = none := by
      rw [hreg, lookupTicker_eq_none_iff, withSlots_map_fst]
      exact hnot
    rw [OrderStorage.getTickerIndex, hnone]
    rw [hnext, hfull]
    simp

/-- C10: querying the order book for a previously-unseen symbol through
`getBuyOrders`/`getSellOrders` is not a pure read.  With a free slot, the
query registers the symbol permanently: it is appended to `getAllTickers`
(so it appears in `symbols()` although no order for it was ever submitted),
its slot is recorded, and the slot counter advances.  Only when the registry
is already full does the query leave the storage unchanged and return the
empty sequence. -/
theorem c10_query_registers_symbol (st : OrderStorage) (symbol : String)
    (hnew : lookupTicker st.tickerToIndex symbol = none) :
    (st.nextIndex < MAX_TICKERS →
      (st.getBuyOrders symbol).2.getAllTickers = st.getAllTickers ++ [symbol] ∧
      (st.getSellOrders symbol).2.getAllTickers = st.getAllTickers ++ [symbol] ∧
      (st.getBuyOrders symbol).2.nextIndex = st.nextIndex + 1 ∧
      lookupTicker (st.getBuyOrders symbol).2.tickerToIndex symbol = some st.nextIndex) ∧
    (MAX_TICKERS ≤ st.nextIndex →
      st.getBuyOrders symbol = ([], st) ∧ st.getSellOrders symbol = ([], st)) := by
  constructor
  · intro hroom
    have hidx : st.getTickerIndex symbol =
        (.ok st.nextIndex,
          { st with tickerToIndex := st.tickerToIndex ++ [(symbol, st.nextIndex)],
                    nextIndex := st.nextIndex + 1 }) := by
      simp [OrderStorage.getTickerIndex, hnew, hroom]
    refine ⟨?_, ?_, ?_, ?_⟩
    · simp [OrderStorage.getBuyOrders, hidx, OrderStorage.getAllTickers]
    · simp [OrderStorage.getSellOrders, hidx, OrderStorage.getAllTickers]
    · simp [OrderStorage.getBuyOrders, hidx]
    · simp only [OrderStorage.getBuyOrders, hidx]
      rw [lookupTicker_append, hnew]
      simp [lookupTicker]
  · intro hfull
    have hidx : st.getTickerIndex symbol = (.error (), st) := by
      have : ¬ st.nextIndex < MAX_TICKERS := by omega
      simp [OrderStorage.getTickerIndex, hnew, this]
    exact ⟨by simp [OrderStorage.getBuyOrders, hidx], by simp [OrderStorage.getSellOrders, hidx]⟩

/-! ### Storage invariance of the read-only helpers -/

theorem lookupTicker_of_mem_fst (l : List (String × Nat)) (s : String)
    (h : s ∈ l.map Prod.fst) : ∃ i, lookupTicker l s = some i := by
  cases hl : lookupTicker l s with
  | some i => exact ⟨i, rfl⟩
  | none => exact absurd h ((lookupTicker_eq_none_iff l s).mp hl)

theorem getBuyOrders_of_found (st : OrderStorage) (s : String) (i : Nat)
    (h : lookupTicker st.tickerToIndex s = some i) :
    st.getBuyOrders s = (st.buyOrders i, st) := by
  simp [OrderStorage.getBuyOrders, getTickerIndex_of_found st s i h]

theorem getSellOrders_of_found (st : OrderStorage) (s : String) (i : Nat)
    (h : lookupTicker st.tickerToIndex s = some i) :
    st.getSellOrders s = (st.sellOrders i, st) := by
  simp [OrderStorage.getSellOrders, getTickerIndex_of_found st s i h]

theorem findLoop_snd :
    ∀ (ts : List String) (st : OrderStorage) (oid : OrderRef),
      (∀ t ∈ ts, t ∈ st.tickerToIndex.map Prod.fst) →
      (TradingEngine.findLoop st ts oid).2 = st := by
  intro ts
  induction ts with
  | nil => intro st oid _; rfl
  | cons t rest ih =>
    intro st oid h
    obtain ⟨i, hi⟩ := lookupTicker_of_mem_fst _ _ (h t (by simp))
    rw [TradingEngine.findLoop]
    rw [getBuyOrders_of_found st t i hi]
    simp only
    cases TradingEngine.findInList (st.buyOrders i) oid with
    | some o => rfl
    | none =>
      simp only
      rw [getSellOrders_of_found st t i hi]
      simp only
      cases TradingEngine.findInList (st.sellOrders i) oid with
      | some o => rfl
      | none => exact ih st oid (fun x hx => h x (by simp [hx]))

theorem findOrderById_snd (st : OrderStorage) (oid : OrderRef) :
    (TradingEngine.findOrderById st oid).2 = st := by
  rw [TradingEngine.findOrderById]
  split
  · rfl
  · exact findLoop_snd st.getAllTickers st oid (fun t ht => ht)

theorem isBuyTransaction_snd (st : OrderStorage) (t : Transaction) :
    (TradingEngine.isBuyTransaction st t).2 = st := by
  rw [TradingEngine.isBuyTransaction]
  split
  · rfl
  · split
    · rfl
    · have h1 := findOrderById_snd st t.buyOrderId
      cases hfb : TradingEngine.findOrderById st t.buyOrderId with
      | mk fst snd =>
        rw [hfb] at h1
        cases fst with
        | some o => simpa using h1
        | none =>
          simp only
          have h2 := findOrderById_snd snd t.sellOrderId
          cases hfs : TradingEngine.findOrderById snd t.sellOrderId with
          | mk fst2 snd2 =>
            rw [hfs] at h2
            cases fst2 with
            | some o => simp only; simp only at h1 h2; rw [h2, h1]
            | none => simp only; simp only at h1 h2; rw [h2, h1]

theorem updatePortfolio_storage (s : EngineState) (t : Transaction) :
    (TradingEngine.updatePortfolio s t).storage = s.storage := by
  rw [TradingEngine.updatePortfolio]
  exact isBuyTransaction_snd s.storage t

theorem updatePortfolio_transactions (s : EngineState) (t : Transaction) :
    (TradingEngine.updatePortfolio s t).transactions = s.transactions := rfl

theorem updatePortfolio_counters (s : EngineState) (t : Transaction) :
    (TradingEngine.updatePortfolio s t).orderCounter = s.orderCounter ∧
    (TradingEngine.updatePortfolio s t).transactionCounter = s.transactionCounter :=
  ⟨rfl, rfl⟩

/-! ### Claim C5: the ledger update -/

/-- C5: applying a transaction to the ledger.  On a buy (as classified by
`isBuyTransaction`), shares become `shares + qty` and the average cost
becomes `(shares*averageCost + qty*price) / (shares + qty)`, the position
being created first if absent; on a sell, shares drop by `qty` with the
average cost untouched, and the position is removed entirely when the shares
reach zero or below; the surviving position's mark price (`currentValue`)
is always set to the transaction price. -/
theorem c5_ledger_update (s : EngineState) (t : Transaction) :
    ((TradingEngine.isBuyTransaction s.storage t).1 = true →
      (TradingEngine.updatePortfolio s t).portfolioPositions t.tickerSymbol =
        some { positionOrNew s t with
               shares := (positionOrNew s t).shares + t.quantity,
               averageBuyPrice :=
                 ((positionOrNew s t).shares * (positionOrNew s t).averageBuyPrice +
                    t.quantity * t.price) / ((positionOrNew s t).shares + t.quantity),
               currentValue := t.price }) ∧
    ((TradingEngine.isBuyTransaction s.storage t).1 = false →
      ((positionOrNew s t).shares - t.quantity ≤ 0 →
        (TradingEngine.updatePortfolio s t).portfolioPositions t.tickerSymbol = none) ∧
      (0 < (positionOrNew s t).shares - t.quantity →
        (TradingEngine.updatePortfolio s t).portfolioPositions t.tickerSymbol =
          some { positionOrNew s t with
                 shares := (positionOrNew s t).shares - t.quantity,
                 currentValue := t.price })) := by
  constructor
  · intro hbuy
    rw [TradingEngine.updatePortfolio]
    simp only [hbuy]
    cases hpos : s.portfolioPositions t.tickerSymbol with
    | some p => simp [hpos, positionOrNew]
    | none => simp [hpos, positionOrNew]
  · intro hsell
    constructor
    · intro hzero
      rw [TradingEngine.updatePortfolio]
      simp only [hsell]
      cases hpos : s.portfolioPositions t.tickerSymbol with
      | some p =>
        have : p.shares - t.quantity ≤ 0 := by
          simpa [positionOrNew, hpos] using hzero
        simp [hpos, positionOrNew, this]
      | none =>
        have h0 : (0 : Rat) ≤ t.quantity := by
          have := hzero
          simp only [positionOrNew, hpos] at this
          linarith
        simp [hpos, positionOrNew, h0]
    · intro hleft
      rw [TradingEngine.updatePortfolio]
      simp only [hsell]
      cases hpos : s.portfolioPositions t.tickerSymbol with
      | some p =>
        have : ¬ p.shares - t.quantity ≤ 0 := by
          have := hleft
          simp only [positionOrNew, hpos] at this
          exact not_le.mpr this
        simp [hpos, positionOrNew, this]
      | none =>
        have h0 : ¬ (0 : Rat) ≤ t.quantity := by
          have := hleft
          simp only [positionOrNew, hpos] at this
          intro hc
          linarith
        simp [hpos, positionOrNew, h0]

/-! ### Claim C4: the crossing price -/

theorem bumpStatus_id (o : Order) : (TradingEngine.bumpStatus o).id = o.id := by
  rw [TradingEngine.bumpStatus]; split <;> rfl

theorem bumpStatus_type (o : Order) : (TradingEngine.bumpStatus o).type = o.type := by
  rw [TradingEngine.bumpStatus]; split <;> rfl

theorem bumpStatus_tickerSymbol (o : Order) :
    (TradingEngine.bumpStatus o).tickerSymbol = o.tickerSymbol := by
  rw [TradingEngine.bumpStatus]; split <;> rfl

theorem bumpStatus_quantity (o : Order) :
    (TradingEngine.bumpStatus o).quantity = o.quantity := by
  rw [TradingEngine.bumpStatus]; split <;> rfl

theorem bumpStatus_price (o : Order) : (TradingEngine.bumpStatus o).price = o.price := by
  rw [TradingEngine.bumpStatus]; split <;> rfl

theorem bumpStatus_timestamp (o : Order) :
    (TradingEngine.bumpStatus o).timestamp = o.timestamp := by
  rw [TradingEngine.bumpStatus]; split <;> rfl

theorem bumpStatus_remainingQuantity (o : Order) :
    (TradingEngine.bumpStatus o).remainingQuantity = o.remainingQuantity := by
  rw [TradingEngine.bumpStatus]; split <;> rfl

theorem bumpStatus_core (o : Order) : orderCore (TradingEngine.bumpStatus o) = orderCore o := by
  rw [TradingEngine.bumpStatus]; split <;> rfl

theorem updateOrder_ne_error_of_found (st : OrderStorage) (o : Order) (i : Nat)
    (h : lookupTicker st.tickerToIndex o.tickerSymbol = some i) :
    ∀ e, st.updateOrder o ≠ .error e := by
  intro e
  rw [OrderStorage.updateOrder, getTickerIndex_of_found st _ i h]
  cases o.type <;> simp

theorem matchLoop_txs_extends (now : Nat) :
    ∀ (l : List Order) (order : Order) (s : EngineState) (acc : List Transaction),
      ∃ delta, (TradingEngine.matchLoop now l order s acc).txs = acc ++ delta := by
  intro l
  induction l with
  | nil =>
    intro order s acc
    exact ⟨[], by simp [TradingEngine.matchLoop]⟩
  | cons opp rest ih =>
    intro order s acc
    simp only [TradingEngine.matchLoop]
    split
    · exact ih order s acc
    · split
      · split
        · exact ⟨[], by simp⟩
        · split
          · exact ⟨_, rfl⟩
          · obtain ⟨delta, hd⟩ :=
              ih _ _ (acc ++ [TradingEngine.crossTransaction now order opp s.transactionCounter])
            refine ⟨TradingEngine.crossTransaction now order opp s.transactionCounter :: delta, ?_⟩
            rw [hd, List.append_assoc]
            rfl
      · exact ih order s acc

/-- C4: for every crossing between an incoming order `O` and a book entry
`C` (the entry is live and the prices cross), the emitted transaction's
price is the price of whichever of `O`/`C` has the earlier `createdAt`
timestamp, and on a timestamp tie it is the incoming order `O`'s price.
The hypothesis `hreg` states that `C`'s symbol is registered, which holds
for every book entry the engine ever scans. -/
theorem c4_crossing_price (now : Nat) (opp : Order) (rest : List Order) (order : Order)
    (s : EngineState) (acc : List Transaction) (i : Nat)
    (hskip : ¬(opp.status = .matched ∨ opp.status = .canceled ∨ opp.remainingQuantity ≤ 0))
    (hcross : TradingEngine.priceCrosses order opp = true)
    (hreg : lookupTicker s.storage.tickerToIndex opp.tickerSymbol = some i) :
    ∃ t later,
      (TradingEngine.matchLoop now (opp :: rest) order s acc).txs = acc ++ t :: later ∧
      (opp.timestamp < order.timestamp → t.price = opp.price) ∧
      (order.timestamp < opp.timestamp → t.price = order.price) ∧
      (order.timestamp = opp.timestamp → t.price = order.price) := by
  have hprice :
      (opp.timestamp < order.timestamp →
        (TradingEngine.crossTransaction now order opp s.transactionCounter).price = opp.price) ∧
      (order.timestamp < opp.timestamp →
        (TradingEngine.crossTransaction now order opp s.transactionCounter).price = order.price) ∧
      (order.timestamp = opp.timestamp →
        (TradingEngine.crossTransaction now order opp s.transactionCounter).price =
          order.price) := by
    refine ⟨fun h => ?_, fun h => ?_, fun h => ?_⟩ <;>
      simp only [TradingEngine.crossTransaction, TradingEngine.transactionPrice]
    · rw [if_pos h]
    · rw [if_neg (by omega)]
    · rw [if_neg (by omega)]
  simp only [TradingEngine.matchLoop, if_neg hskip, hcross, if_true]
  have hsymb :
      (TradingEngine.bumpStatus
        { opp with remainingQuantity :=
            opp.remainingQuantity - min order.remainingQuantity opp.remainingQuantity
        }).tickerSymbol = opp.tickerSymbol := bumpStatus_tickerSymbol _
  rw [updatePortfolio_storage]
  cases hupd :
      OrderStorage.updateOrder
        { s with transactionCounter := s.transactionCounter + 1 }.storage
        (TradingEngine.bumpStatus
          { opp with remainingQuantity :=
              opp.remainingQuantity - min order.remainingQuantity opp.remainingQuantity }) with
  | error e =>
    exact absurd hupd (updateOrder_ne_error_of_found _ _ i (by rw [hsymb]; exact hreg) e)
  | ok st =>
    simp only
    split
    · exact ⟨_, [], by simp, hprice⟩
    · obtain ⟨delta, hd⟩ := matchLoop_txs_extends now rest _ _
        (acc ++ [TradingEngine.crossTransaction now order opp s.transactionCounter])
      refine ⟨_, delta, ?_, hprice⟩
      rw [hd, List.append_assoc]
      rfl

/-! ### Claim C3: validation and rejection atomicity -/

theorem insufficientFor_iff (s : EngineState) (sym : String) (q : Rat) (hq : 0 < q) :
    TradingEngine.insufficientFor s sym q = true ↔ TradingEngine.sharesOf s sym < q := by
  cases hpos : s.portfolioPositions sym with
  | none => simp [TradingEngine.insufficientFor, TradingEngine.sharesOf, hpos, hq]
  | some p => simp [TradingEngine.insufficientFor, TradingEngine.sharesOf, hpos]

theorem addOrder_deep_shape (s : EngineState) (type : OrderType) (sym : String)
    (q p : Rat) (now : Nat)
    (h1 : ¬ q ≤ 0) (h2 : ¬ p ≤ 0) (h3 : ¬ TradingEngine.blankSymbol sym = true)
    (h4 : ¬(type = .sell ∧ TradingEngine.insufficientFor s sym q = true)) :
    (TradingEngine.addOrder s type sym q p now).1 = .error .capacityExceeded ∨
      ∃ o, (TradingEngine.addOrder s type sym q p now).1 = .ok o := by
  simp only [TradingEngine.addOrder, if_neg h1, if_neg h2, if_neg h3, if_neg h4]
  split
  · exact Or.inl rfl
  · split
    · exact Or.inl rfl
    · split
      · split
        · exact Or.inl rfl
        · exact Or.inr ⟨_, rfl⟩
      · split
        · split
          · exact Or.inl rfl
          · exact Or.inr ⟨_, rfl⟩
        · exact Or.inr ⟨_, rfl⟩

/-- C3: `addOrder` rejects with `InvalidOrderParameters` exactly when
`quantity <= 0`, `price <= 0`, or the symbol is blank; it rejects a sell
with `InsufficientShares` exactly when those parameter checks pass and the
held shares are fewer than the requested quantity (the source performs the
parameter checks first, so they take precedence); and either rejection
returns the state unchanged: no order is created, no book, ledger, or log
mutation survives. -/
theorem c3_validation_rejection (s : EngineState) (type : OrderType) (sym : String)
    (q p : Rat) (now : Nat) :
    ((TradingEngine.addOrder s type sym q p now).1 = .error .invalidOrderParameters ↔
      (q ≤ 0 ∨ p ≤ 0 ∨ TradingEngine.blankSymbol sym = true)) ∧
    ((TradingEngine.addOrder s type sym q p now).1 = .error .insufficientShares ↔
      (¬(q ≤ 0 ∨ p ≤ 0 ∨ TradingEngine.blankSymbol sym = true) ∧ type = .sell ∧
        TradingEngine.sharesOf s sym < q)) ∧
    ((TradingEngine.addOrder s type sym q p now).1 = .error .invalidOrderParameters ∨
      (TradingEngine.addOrder s type sym q p now).1 = .error .insufficientShares →
      (TradingEngine.addOrder s type sym q p now).2 = s) := by
  by_cases h1 : q ≤ 0
  · have hres : TradingEngine.addOrder s type sym q p now = (.error .invalidOrderParameters, s) := by
      simp [TradingEngine.addOrder, h1]
    rw [hres]
    exact ⟨by simp [h1], by simp [h1], fun _ => rfl⟩
  by_cases h2 : p ≤ 0
  · have hres : TradingEngine.addOrder s type sym q p now = (.error .invalidOrderParameters, s) := by
      simp [TradingEngine.addOrder, h1, h2]
    rw [hres]
    exact ⟨by simp [h2], by simp [h2], fun _ => rfl⟩
  by_cases h3 : TradingEngine.blankSymbol sym = true
  · have hres : TradingEngine.addOrder s type sym q p now = (.error .invalidOrderParameters, s) := by
      simp [TradingEngine.addOrder, h1, h2, h3]
    rw [hres]
    exact ⟨by simp [h3], by simp [h3], fun _ => rfl⟩
  have hq : 0 < q := lt_of_not_le h1
  have hnv : ¬(q ≤ 0 ∨ p ≤ 0 ∨ TradingEngine.blankSymbol sym = true) := by
    rintro (h | h | h)
    · exact h1 h
    · exact h2 h
    · exact h3 h
  by_cases h4 : type = .sell ∧ TradingEngine.insufficientFor s sym q = true
  · have hres : TradingEngine.addOrder s type sym q p now = (.error .insufficientShares, s) := by
      simp only [TradingEngine.addOrder, if_neg h1, if_neg h2, if_neg h3, if_pos h4]
    rw [hres]
    refine ⟨Iff.intro (fun h => absurd h (by simp)) (fun h => absurd h hnv), ?_, fun _ => rfl⟩
    constructor
    · intro _
      exact ⟨hnv, h4.1, (insufficientFor_iff s sym q hq).mp h4.2⟩
    · intro _
      rfl
  · obtain hshape := addOrder_deep_shape s type sym q p now h1 h2 h3 h4
    have hne1 : (TradingEngine.addOrder s type sym q p now).1 ≠ .error .invalidOrderParameters := by
      rcases hshape with h | ⟨o, h⟩ <;> rw [h] <;> simp
    have hne2 : (TradingEngine.addOrder s type sym q p now).1 ≠ .error .insufficientShares := by
      rcases hshape with h | ⟨o, h⟩ <;> rw [h] <;> simp
    refine ⟨?_, ?_, ?_⟩
    · constructor
      · intro h
        exact absurd h hne1
      · intro h
        exact absurd h hnv
    · constructor
      · intro h
        exact absurd h hne2
      · rintro ⟨_, hsell, hless⟩
        exact absurd ⟨hsell, (insufficientFor_iff s sym q hq).mpr hless⟩ h4
    · intro hcontra
      rcases hcontra with h | h
      · exact absurd h hne1
      · exact absurd h hne2

/-! ### The quiet path of the matcher (no crossing happened) -/

theorem matchLoop_no_cross (now : Nat) :
    ∀ (l : List Order) (order : Order) (s : EngineState) (acc : List Transaction),
      (TradingEngine.matchLoop now l order s acc).txs = acc →
      (TradingEngine.matchLoop now l order s acc).err = false →
      TradingEngine.matchLoop now l order s acc = ⟨order, s, acc, false, false⟩ := by
  intro l
  induction l with
  | nil =>
    intro order s acc _ _
    rfl
  | cons opp rest ih =>
    intro order s acc htxs herr
    by_cases hskip : opp.status = .matched ∨ opp.status = .canceled ∨ opp.remainingQuantity ≤ 0
    · simp only [TradingEngine.matchLoop, if_pos hskip] at htxs herr ⊢
      exact ih order s acc htxs herr
    by_cases hcross : TradingEngine.priceCrosses order opp = true
    · simp only [TradingEngine.matchLoop, if_neg hskip, hcross, if_true] at htxs herr ⊢
      rw [updatePortfolio_storage] at htxs herr
      cases hupd :
          OrderStorage.updateOrder
            { s with transactionCounter := s.transactionCounter + 1 }.storage
            (TradingEngine.bumpStatus
              { opp with remainingQuantity :=
                  opp.remainingQuantity - min order.remainingQuantity opp.remainingQuantity }) with
      | error e =>
        rw [hupd] at herr
        exact Bool.noConfusion herr
      | ok st =>
        rw [hupd] at htxs
        simp only at htxs
        split at htxs
        · simp only at htxs
          have : (acc ++ [TradingEngine.crossTransaction now order opp s.transactionCounter]).length
              = acc.length := by rw [htxs]
          simp at this
        · obtain ⟨delta, hd⟩ := matchLoop_txs_extends now rest _ _
            (acc ++ [TradingEngine.crossTransaction now order opp s.transactionCounter])
          rw [hd] at htxs
          have := congrArg List.length htxs
          simp at this
    · have hcf : TradingEngine.priceCrosses order opp = false := by
        revert hcross
        cases TradingEngine.priceCrosses order opp <;> simp
      simp only [TradingEngine.matchLoop, if_neg hskip, hcf, Bool.false_eq_true, if_false]
        at htxs herr ⊢
      exact ih order s acc htxs herr

theorem matchOrder_quiet (s : EngineState) (order : Order) (now : Nat)
    (htxs : (TradingEngine.matchOrder s order now).txs = [])
    (herr : (TradingEngine.matchOrder s order now).err = false) :
    (TradingEngine.matchOrder s order now).order = order ∧
    (TradingEngine.matchOrder s order now).state.transactions = s.transactions ∧
    (TradingEngine.matchOrder s order now).state.portfolioPositions = s.portfolioPositions ∧
    (TradingEngine.matchOrder s order now).state.orderCounter = s.orderCounter ∧
    (TradingEngine.matchOrder s order now).state.transactionCounter = s.transactionCounter ∧
    (TradingEngine.matchOrder s order now).filled = false := by
  simp only [TradingEngine.matchOrder] at htxs herr ⊢
  set oppRes :=
    (if order.type = OrderType.buy then OrderStorage.getSellOrders s.storage order.tickerSymbol
      else OrderStorage.getBuyOrders s.storage order.tickerSymbol) with hoppRes
  by_cases hemp : oppRes.1 = []
  · simp only [if_pos hemp] at htxs herr ⊢
    simp
  · simp only [if_neg hemp] at htxs herr ⊢
    set r0 := TradingEngine.matchLoop now oppRes.1 order { s with storage := oppRes.2 } []
      with hr0
    by_cases he : r0.err = true
    · simp only [if_pos he] at htxs herr ⊢
      rw [he] at herr
      exact Bool.noConfusion herr
    · have he' : r0.err = false := by
        revert he
        cases r0.err <;> simp
      simp only [if_neg he] at htxs herr ⊢
      have htxs0 : r0.txs = [] := by
        by_cases hfill : r0.filled = false ∧ 0 < r0.order.remainingQuantity
        · rw [if_pos hfill] at htxs
          revert htxs
          cases r0.state.storage.updateOrder r0.order <;> intro htxs <;> exact htxs
        · rw [if_neg hfill] at htxs
          exact htxs
      rw [hr0] at htxs0
      have hml : r0 = ⟨order, { s with storage := oppRes.2 }, [], false, false⟩ := by
        rw [hr0]
        exact matchLoop_no_cross now oppRes.1 order _ [] htxs0 (hr0 ▸ he')
      rw [hml]
      split
      · split
        · exact ⟨rfl, rfl, rfl, rfl, rfl, rfl⟩
        · exact ⟨rfl, rfl, rfl, rfl, rfl, rfl⟩
      · exact ⟨rfl, rfl, rfl, rfl, rfl, rfl⟩

/-! ### Registry growth through the matcher -/

theorem registry_getTickerIndex (st : OrderStorage) (sym : String) :
    ∃ l, (st.getTickerIndex sym).2.tickerToIndex = st.tickerToIndex ++ l := by
  cases hl : lookupTicker st.tickerToIndex sym with
  | some i =>
    rw [OrderStorage.getTickerIndex, hl]
    exact ⟨[], (List.append_nil _).symm⟩
  | none =>
    rw [OrderStorage.getTickerIndex, hl]
    by_cases hr : st.nextIndex < MAX_TICKERS
    · rw [if_pos hr]
      exact ⟨[(sym, st.nextIndex)], rfl⟩
    · rw [if_neg hr]
      exact ⟨[], (List.append_nil _).symm⟩

theorem registry_getBuyOrders (st : OrderStorage) (sym : String) :
    ∃ l, (st.getBuyOrders sym).2.tickerToIndex = st.tickerToIndex ++ l := by
  obtain ⟨l, hl⟩ := registry_getTickerIndex st sym
  rw [OrderStorage.getBuyOrders]
  cases h : st.getTickerIndex sym with
  | mk e st1 =>
    rw [h] at hl
    cases e with
    | ok i => exact ⟨l, hl⟩
    | error u => exact ⟨l, hl⟩

theorem registry_getSellOrders (st : OrderStorage) (sym : String) :
    ∃ l, (st.getSellOrders sym).2.tickerToIndex = st.tickerToIndex ++ l := by
  obtain ⟨l, hl⟩ := registry_getTickerIndex st sym
  rw [OrderStorage.getSellOrders]
  cases h : st.getTickerIndex sym with
  | mk e st1 =>
    rw [h] at hl
    cases e with
    | ok i => exact ⟨l, hl⟩
    | error u => exact ⟨l, hl⟩

theorem registry_updateOrder (st : OrderStorage) (o : Order) (st2 : OrderStorage)
    (h : st.updateOrder o = .ok st2) :
    ∃ l, st2.tickerToIndex = st.tickerToIndex ++ l := by
  obtain ⟨l, hl⟩ := registry_getTickerIndex st o.tickerSymbol
  rw [OrderStorage.updateOrder] at h
  cases hidx : st.getTickerIndex o.tickerSymbol with
  | mk e st1 =>
    rw [hidx] at h hl
    cases e with
    | error u => exact absurd h (by simp)
    | ok i =>
      cases ht : o.type <;> rw [ht] at h <;> simp only [Except.ok.injEq] at h <;>
        rw [← h] <;> exact ⟨l, hl⟩

theorem registry_writeThrough (st : OrderStorage) (o : Order) :
    (st.writeThrough o).tickerToIndex = st.tickerToIndex := by
  rw [OrderStorage.writeThrough]
  cases lookupTicker st.tickerToIndex o.tickerSymbol with
  | none => rfl
  | some i => cases o.type <;> rfl

theorem registry_matchLoop (now : Nat) :
    ∀ (l : List Order) (order : Order) (s : EngineState) (acc : List Transaction),
      ∃ d, (TradingEngine.matchLoop now l order s acc).state.storage.tickerToIndex =
        s.storage.tickerToIndex ++ d := by
  intro l
  induction l with
  | nil =>
    intro order s acc
    exact ⟨[], (List.append_nil _).symm⟩
  | cons opp rest ih =>
    intro order s acc
    by_cases hskip : opp.status = .matched ∨ opp.status = .canceled ∨ opp.remainingQuantity ≤ 0
    · simp only [TradingEngine.matchLoop, if_pos hskip]
      exact ih order s acc
    by_cases hcross : TradingEngine.priceCrosses order opp = true
    · simp only [TradingEngine.matchLoop, if_neg hskip, hcross, if_true]
      rw [updatePortfolio_storage]
      cases hupd :
          OrderStorage.updateOrder
            { s with transactionCounter := s.transactionCounter + 1 }.storage
            (TradingEngine.bumpStatus
              { opp with remainingQuantity :=
                  opp.remainingQuantity - min order.remainingQuantity opp.remainingQuantity }) with
      | error e =>
        simp only
        rw [updatePortfolio_storage]
        exact ⟨[], (List.append_nil _).symm⟩
      | ok st =>
        obtain ⟨l1, hl1⟩ := registry_updateOrder _ _ _ hupd
        simp only
        split
        · exact ⟨l1, hl1⟩
        · obtain ⟨d, hd⟩ := ih _ _ _
          refine ⟨l1 ++ d, ?_⟩
          rw [hd]
          simp only
          rw [hl1, List.append_assoc]
    · have hcf : TradingEngine.priceCrosses order opp = false := by
        revert hcross
        cases TradingEngine.priceCrosses order opp <;> simp
      simp only [TradingEngine.matchLoop, if_neg hskip, hcf, Bool.false_eq_true, if_false]
      exact ih order s acc

theorem registry_matchOrder (s : EngineState) (order : Order) (now : Nat) :
    ∃ d, (TradingEngine.matchOrder s order now).state.storage.tickerToIndex =
      s.storage.tickerToIndex ++ d := by
  simp only [TradingEngine.matchOrder]
  set oppRes :=
    (if order.type = OrderType.buy then OrderStorage.getSellOrders s.storage order.tickerSymbol
      else OrderStorage.getBuyOrders s.storage order.tickerSymbol) with hoppRes
  have hOpp : ∃ l0, oppRes.2.tickerToIndex = s.storage.tickerToIndex ++ l0 := by
    rw [hoppRes]
    by_cases ht : order.type = OrderType.buy
    · rw [if_pos ht]
      exact registry_getSellOrders s.storage order.tickerSymbol
    · rw [if_neg ht]
      exact registry_getBuyOrders s.storage order.tickerSymbol
  obtain ⟨l0, hl0⟩ := hOpp
  by_cases hemp : oppRes.1 = []
  · rw [if_pos hemp]
    exact ⟨l0, hl0⟩
  · rw [if_neg hemp]
    set r0 := TradingEngine.matchLoop now oppRes.1 order { s with storage := oppRes.2 } []
      with hr0
    obtain ⟨d, hd⟩ := registry_matchLoop now oppRes.1 order { s with storage := oppRes.2 } []
    rw [← hr0] at hd
    by_cases he : r0.err = true
    · rw [if_pos he]
      simp only
      rw [registry_writeThrough, hd, hl0, List.append_assoc]
      exact ⟨l0 ++ d, rfl⟩
    · rw [if_neg he]
      by_cases hfill : r0.filled = false ∧ 0 < r0.order.remainingQuantity
      · rw [if_pos hfill]
        cases hupd : r0.state.storage.updateOrder r0.order with
        | error e =>
          simp only
          rw [hd, hl0, List.append_assoc]
          exact ⟨l0 ++ d, rfl⟩
        | ok st =>
          obtain ⟨l1, hl1⟩ := registry_updateOrder _ _ _ hupd
          simp only
          rw [hl1, hd, hl0]
          refine ⟨l0 ++ (d ++ l1), ?_⟩
          simp [List.append_assoc]
      · rw [if_neg hfill]
        simp only
        rw [registry_writeThrough, hd, hl0, List.append_assoc]
        exact ⟨l0 ++ d, rfl⟩

/-! ### The shape of a successful book insertion -/

theorem getTickerIndex_ok_lookup (st : OrderStorage) (sym : String) (i : Nat)
    (st1 : OrderStorage) (h : st.getTickerIndex sym = (.ok i, st1)) :
    lookupTicker st1.tickerToIndex sym = some i := by
  rw [OrderStorage.getTickerIndex] at h
  cases hl : lookupTicker st.tickerToIndex sym with
  | some j =>
    rw [hl] at h
    simp only [Prod.mk.injEq, Except.ok.injEq] at h
    rw [← h.2, ← h.1]
    exact hl
  | none =>
    rw [hl] at h
    by_cases hr : st.nextIndex < MAX_TICKERS
    · rw [if_pos hr] at h
      simp only [Prod.mk.injEq, Except.ok.injEq] at h
      rw [← h.2, ← h.1]
      simp only
      rw [lookupTicker_append, hl]
      simp [lookupTicker]
    · rw [if_neg hr] at h
      simp at h

theorem storage_addOrder_ok (st : OrderStorage) (o : Order) (st2 : OrderStorage)
    (h : OrderStorage.addOrder st o = .ok st2) :
    ∃ i, lookupTicker st2.tickerToIndex o.tickerSymbol = some i ∧
      (o.type = .buy → o ∈ st2.buyOrders i) ∧
      (o.type = .sell → o ∈ st2.sellOrders i) := by
  rw [OrderStorage.addOrder] at h
  cases hidx : st.getTickerIndex o.tickerSymbol with
  | mk e st1 =>
    rw [hidx] at h
    cases e with
    | error u => exact absurd h (by simp)
    | ok i =>
      have hlook1 : lookupTicker st1.tickerToIndex o.tickerSymbol = some i :=
        getTickerIndex_ok_lookup st _ i st1 hidx
      refine ⟨i, ?_⟩
      cases ht : o.type
      case buy =>
        simp only [ht, Except.ok.injEq] at h
        subst h
        refine ⟨hlook1, fun _ => ?_, fun hc => absurd hc (by decide)⟩
        simp [OrderStorage.setBuyList, List.mem_insertionSort]
      case sell =>
        simp only [ht, Except.ok.injEq] at h
        subst h
        refine ⟨hlook1, fun hc => absurd hc (by decide), fun _ => ?_⟩
        simp [OrderStorage.setSellList, List.mem_insertionSort]

theorem updateOrder_found (st : OrderStorage) (o : Order) (i : Nat)
    (hlook : lookupTicker st.tickerToIndex o.tickerSymbol = some i) :
    (o.type = .buy →
      st.updateOrder o = .ok (st.setBuyList i (replaceById (st.buyOrders i) o))) ∧
    (o.type = .sell →
      st.updateOrder o = .ok (st.setSellList i (replaceById (st.sellOrders i) o))) := by
  rw [OrderStorage.updateOrder, getTickerIndex_of_found st _ i hlook]
  constructor <;> intro ht <;> rw [ht]

/-! ### The ledger update for sentinel transactions reads no storage -/

theorem updatePortfolio_positions_sentinel (s1 s2 : EngineState) (t : Transaction)
    (hps : s1.portfolioPositions = s2.portfolioPositions)
    (hsent : t.sellOrderId = .autoFilled ∨
      (t.sellOrderId ≠ .autoFilled ∧ t.buyOrderId = .market)) :
    (TradingEngine.updatePortfolio s1 t).portfolioPositions =
      (TradingEngine.updatePortfolio s2 t).portfolioPositions := by
  have hbt : (TradingEngine.isBuyTransaction s1.storage t).1 =
      (TradingEngine.isBuyTransaction s2.storage t).1 := by
    rcases hsent with h | ⟨hne, hm⟩
    · simp [TradingEngine.isBuyTransaction, h]
    · simp [TradingEngine.isBuyTransaction, hne, hm]
  simp only [TradingEngine.updatePortfolio]
  rw [hps, hbt]

/-! ### Claim C1: the synthetic-liquidity fallback -/

/-- C1: a validated order whose matching pass produces zero transactions is
settled by exactly one synthetic transaction appended to the log: full
original quantity, the order's own price, counterparty `auto-filled` for a
buy and `market` for a sell; the transaction is applied to the ledger and
the order is returned `Filled` (`matched`) with remaining quantity `0`.
The hypotheses state that validation passes, that the insertion into the
book succeeded (registry not full; `st2` is the storage after insertion),
and that the matching pass produced no transaction and no exception. -/
theorem c1_synthetic_fallback (s : EngineState) (type : OrderType) (sym : String)
    (q pr : Rat) (now : Nat) (st2 : OrderStorage)
    (hq : 0 < q) (hp : 0 < pr) (hb : TradingEngine.blankSymbol sym = false)
    (hsell : type = .sell → TradingEngine.insufficientFor s sym q = false)
    (hst : OrderStorage.addOrder s.storage
      (TradingEngine.newOrderOf s type sym q pr now) = .ok st2)
    (hmatch : (TradingEngine.matchOrder (TradingEngine.midState s st2)
      (TradingEngine.newOrderOf s type sym q pr now) now).txs = [])
    (herr : (TradingEngine.matchOrder (TradingEngine.midState s st2)
      (TradingEngine.newOrderOf s type sym q pr now) now).err = false) :
    ∃ o tx s2,
      TradingEngine.addOrder s type sym q pr now = (.ok o, s2) ∧
      o.id = .ord now s.orderCounter ∧
      o.status = .matched ∧
      o.remainingQuantity = 0 ∧
      o.quantity = q ∧
      s2.transactions = s.transactions ++ [tx] ∧
      tx.quantity = q ∧ tx.price = pr ∧ tx.tickerSymbol = sym ∧
      (type = .buy → tx.buyOrderId = o.id ∧ tx.sellOrderId = .autoFilled) ∧
      (type = .sell → tx.buyOrderId = .market ∧ tx.sellOrderId = o.id) ∧
      s2.portfolioPositions = (TradingEngine.updatePortfolio s tx).portfolioPositions := by
  have hqle : ¬ q ≤ 0 := not_le.mpr hq
  have hple : ¬ pr ≤ 0 := not_le.mpr hp
  have hbne : ¬ TradingEngine.blankSymbol sym = true := by simp [hb]
  have hsellne : ¬(type = .sell ∧ TradingEngine.insufficientFor s sym q = true) := by
    rintro ⟨ht, hi⟩
    rw [hsell ht] at hi
    exact Bool.noConfusion hi
  obtain ⟨hOrd, hTr, hPos, hOC, hTC, hFil⟩ := matchOrder_quiet _ _ _ hmatch herr
  obtain ⟨i, hlook2, hmemB, hmemS⟩ := storage_addOrder_ok _ _ _ hst
  obtain ⟨d, hrd⟩ := registry_matchOrder (TradingEngine.midState s st2)
    (TradingEngine.newOrderOf s type sym q pr now) now
  have hlookr : lookupTicker (TradingEngine.matchOrder (TradingEngine.midState s st2)
      (TradingEngine.newOrderOf s type sym q pr now) now).state.storage.tickerToIndex sym =
      some i := by
    rw [hrd]
    exact lookupTicker_append_of_some _ _ _ _ hlook2
  simp only [TradingEngine.addOrder, if_neg hqle, if_neg hple, if_neg hbne, if_neg hsellne]
  rw [hst]
  simp only
  set r := TradingEngine.matchOrder (TradingEngine.midState s st2)
    (TradingEngine.newOrderOf s type sym q pr now) now with hrdef
  simp only [herr, Bool.false_eq_true, if_false]
  simp only [hOrd, hTC, hTr, hPos, hOC, TradingEngine.newOrderOf]
  cases type
  case buy =>
    rw [if_pos ⟨rfl, hmatch⟩]
    rw [updatePortfolio_storage]
    split
    · rename_i e hupd2
      refine absurd hupd2 (updateOrder_ne_error_of_found _ _ i ?_ e)
      exact hlookr
    · rename_i stf hupd2
      refine ⟨{ id := .ord now s.orderCounter, type := .buy, tickerSymbol := sym,
                quantity := q, price := pr, timestamp := now, status := .matched,
                remainingQuantity := 0 },
              { id := (now, s.transactionCounter), buyOrderId := .ord now s.orderCounter,
                sellOrderId := .autoFilled, tickerSymbol := sym, quantity := q,
                price := pr, timestamp := now },
              _, rfl, rfl, rfl, rfl, rfl, ?_, rfl, rfl, rfl,
              fun _ => ⟨rfl, rfl⟩, fun hc => absurd hc (by decide), ?_⟩
      · rw [updatePortfolio_transactions]
        rfl
      · rw [updatePortfolio_positions_sentinel _ s _ rfl (Or.inl rfl)]
        rfl
  case sell =>
    rw [if_neg (by rintro ⟨hc, _⟩; exact absurd hc (by decide))]
    rw [if_pos ⟨rfl, hmatch⟩]
    rw [updatePortfolio_storage]
    split
    · rename_i e hupd2
      refine absurd hupd2 (updateOrder_ne_error_of_found _ _ i ?_ e)
      exact hlookr
    · rename_i stf hupd2
      refine ⟨{ id := .ord now s.orderCounter, type := .sell, tickerSymbol := sym,
                quantity := q, price := pr, timestamp := now, status := .matched,
                remainingQuantity := 0 },
              { id := (now, s.transactionCounter), buyOrderId := .market,
                sellOrderId := .ord now s.orderCounter, tickerSymbol := sym, quantity := q,
                price := pr, timestamp := now },
              _, rfl, rfl, rfl, rfl, rfl, ?_, rfl, rfl, rfl,
              fun hc => absurd hc (by decide), fun _ => ⟨rfl, rfl⟩, ?_⟩
      · rw [updatePortfolio_transactions]
        rfl
      · rw [updatePortfolio_positions_sentinel _ s _ rfl (Or.inr ⟨by simp, rfl⟩)]
        rfl

/-! ### Claim C2: the fallback-settled order remains in the book -/

theorem replaceById_map_id (l : List Order) (o : Order) :
    (replaceById l o).map Order.id = l.map Order.id := by
  induction l with
  | nil => rfl
  | cons x rest ih =>
    rw [replaceById]
    by_cases hx : x.id = o.id
    · rw [if_pos hx]
      simp [hx]
    · rw [if_neg hx]
      simp [ih]

theorem mem_replaceById_self (l : List Order) (o : Order) (h : o.id ∈ l.map Order.id) :
    o ∈ replaceById l o := by
  induction l with
  | nil => simp at h
  | cons x rest ih =>
    rw [replaceById]
    by_cases hx : x.id = o.id
    · rw [if_pos hx]
      simp
    · rw [if_neg hx]
      rcases List.mem_cons.mp h with h1 | h1
      · exact absurd h1.symm hx
      · exact List.mem_cons_of_mem _ (ih h1)

theorem books_getTickerIndex (st : OrderStorage) (sym : String) :
    (st.getTickerIndex sym).2.buyOrders = st.buyOrders ∧
    (st.getTickerIndex sym).2.sellOrders = st.sellOrders := by
  rw [OrderStorage.getTickerIndex]
  cases lookupTicker st.tickerToIndex sym with
  | some i => exact ⟨rfl, rfl⟩
  | none =>
    by_cases hr : st.nextIndex < MAX_TICKERS
    · rw [if_pos hr]
      exact ⟨rfl, rfl⟩
    · rw [if_neg hr]
      exact ⟨rfl, rfl⟩

theorem bookIds_updateOrder (st : OrderStorage) (o : Order) (st2 : OrderStorage)
    (h : st.updateOrder o = .ok st2) (j : Nat) :
    (st2.buyOrders j).map Order.id = (st.buyOrders j).map Order.id ∧
    (st2.sellOrders j).map Order.id = (st.sellOrders j).map Order.id := by
  obtain ⟨hbo, hso⟩ := books_getTickerIndex st o.tickerSymbol
  rw [OrderStorage.updateOrder] at h
  cases hidx : st.getTickerIndex o.tickerSymbol with
  | mk e st1 =>
    rw [hidx] at h hbo hso
    replace hbo : st1.buyOrders = st.buyOrders := hbo
    replace hso : st1.sellOrders = st.sellOrders := hso
    cases e with
    | error u => exact absurd h (by simp)
    | ok i =>
      cases ht : o.type
      case buy =>
        simp only [ht, Except.ok.injEq] at h
        subst h
        refine ⟨?_, by simp [OrderStorage.setBuyList, hso]⟩
        simp only [OrderStorage.setBuyList]
        by_cases hj : j = i
        · subst hj
          simp [replaceById_map_id, hbo]
        · simp [hj, hbo]
      case sell =>
        simp only [ht, Except.ok.injEq] at h
        subst h
        refine ⟨by simp [OrderStorage.setSellList, hbo], ?_⟩
        simp only [OrderStorage.setSellList]
        by_cases hj : j = i
        · subst hj
          simp [replaceById_map_id, hso]
        · simp [hj, hso]

theorem bookIds_writeThrough (st : OrderStorage) (o : Order) (j : Nat) :
    ((st.writeThrough o).buyOrders j).map Order.id = (st.buyOrders j).map Order.id ∧
    ((st.writeThrough o).sellOrders j).map Order.id = (st.sellOrders j).map Order.id := by
  rw [OrderStorage.writeThrough]
  cases lookupTicker st.tickerToIndex o.tickerSymbol with
  | none => exact ⟨rfl, rfl⟩
  | some i =>
    cases o.type
    case buy =>
      refine ⟨?_, rfl⟩
      simp only [OrderStorage.setBuyList]
      by_cases hj : j = i
      · subst hj
        simp [replaceById_map_id]
      · simp [hj]
    case sell =>
      refine ⟨rfl, ?_⟩
      simp only [OrderStorage.setSellList]
      by_cases hj : j = i
      · subst hj
        simp [replaceById_map_id]
      · simp [hj]

theorem bookIds_matchLoop (now : Nat) :
    ∀ (l : List Order) (order : Order) (s : EngineState) (acc : List Transaction) (j : Nat),
      (((TradingEngine.matchLoop now l order s acc).state.storage.buyOrders j).map Order.id =
        (s.storage.buyOrders j).map Order.id) ∧
      (((TradingEngine.matchLoop now l order s acc).state.storage.sellOrders j).map Order.id =
        (s.storage.sellOrders j).map Order.id) := by
  intro l
  induction l with
  | nil =>
    intro order s acc j
    exact ⟨rfl, rfl⟩
  | cons opp rest ih =>
    intro order s acc j
    by_cases hskip : opp.status = .matched ∨ opp.status = .canceled ∨ opp.remainingQuantity ≤ 0
    · simp only [TradingEngine.matchLoop, if_pos hskip]
      exact ih order s acc j
    by_cases hcross : TradingEngine.priceCrosses order opp = true
    · simp only [TradingEngine.matchLoop, if_neg hskip, hcross, if_true]
      rw [updatePortfolio_storage]
      cases hupd :
          OrderStorage.updateOrder
            { s with transactionCounter := s.transactionCounter + 1 }.storage
            (TradingEngine.bumpStatus
              { opp with remainingQuantity :=
                  opp.remainingQuantity - min order.remainingQuantity opp.remainingQuantity }) with
      | error e =>
        simp only
        rw [updatePortfolio_storage]
        exact ⟨rfl, rfl⟩
      | ok st =>
        obtain ⟨hb1, hs1⟩ := bookIds_updateOrder _ _ _ hupd j
        simp only
        split
        · exact ⟨hb1, hs1⟩
        · obtain ⟨hb2, hs2⟩ := ih _ _ _ j
          exact ⟨hb2.trans hb1, hs2.trans hs1⟩
    · have hcf : TradingEngine.priceCrosses order opp = false := by
        revert hcross
        cases TradingEngine.priceCrosses order opp <;> simp
      simp only [TradingEngine.matchLoop, if_neg hskip, hcf, Bool.false_eq_true, if_false]
      exact ih order s acc j

theorem bookIds_matchOrder (s : EngineState) (order : Order) (now : Nat) (j : Nat) :
    (((TradingEngine.matchOrder s order now).state.storage.buyOrders j).map Order.id =
      (s.storage.buyOrders j).map Order.id) ∧
    (((TradingEngine.matchOrder s order now).state.storage.sellOrders j).map Order.id =
      (s.storage.sellOrders j).map Order.id) := by
  simp only [TradingEngine.matchOrder]
  set oppRes :=
    (if order.type = OrderType.buy then OrderStorage.getSellOrders s.storage order.tickerSymbol
      else OrderStorage.getBuyOrders s.storage order.tickerSymbol) with hoppRes
  have hOppB : oppRes.2.buyOrders = s.storage.buyOrders ∧
      oppRes.2.sellOrders = s.storage.sellOrders := by
    rw [hoppRes]
    by_cases ht : order.type = OrderType.buy
    · rw [if_pos ht]
      rw [OrderStorage.getSellOrders]
      obtain ⟨h1, h2⟩ := books_getTickerIndex s.storage order.tickerSymbol
      cases h : s.storage.getTickerIndex order.tickerSymbol with
      | mk e st1 =>
        rw [h] at h1 h2
        replace h1 : st1.buyOrders = s.storage.buyOrders := h1
        replace h2 : st1.sellOrders = s.storage.sellOrders := h2
        cases e with
        | ok i => exact ⟨h1, h2⟩
        | error u => exact ⟨h1, h2⟩
    · rw [if_neg ht]
      rw [OrderStorage.getBuyOrders]
      obtain ⟨h1, h2⟩ := books_getTickerIndex s.storage order.tickerSymbol
      cases h : s.storage.getTickerIndex order.tickerSymbol with
      | mk e st1 =>
        rw [h] at h1 h2
        replace h1 : st1.buyOrders = s.storage.buyOrders := h1
        replace h2 : st1.sellOrders = s.storage.sellOrders := h2
        cases e with
        | ok i => exact ⟨h1, h2⟩
        | error u => exact ⟨h1, h2⟩
  by_cases hemp : oppRes.1 = []
  · rw [if_pos hemp]
    simp only
    rw [hOppB.1, hOppB.2]
    exact ⟨rfl, rfl⟩
  · rw [if_neg hemp]
    set r0 := TradingEngine.matchLoop now oppRes.1 order { s with storage := oppRes.2 } []
      with hr0
    obtain ⟨hb0, hs0⟩ := bookIds_matchLoop now oppRes.1 order { s with storage := oppRes.2 } [] j
    rw [← hr0] at hb0 hs0
    simp only at hb0 hs0
    rw [hOppB.1] at hb0
    rw [hOppB.2] at hs0
    by_cases he : r0.err = true
    · rw [if_pos he]
      simp only
      obtain ⟨hwb, hws⟩ := bookIds_writeThrough r0.state.storage r0.order j
      exact ⟨hwb.trans hb0, hws.trans hs0⟩
    · rw [if_neg he]
      by_cases hfill : r0.filled = false ∧ 0 < r0.order.remainingQuantity
      · rw [if_pos hfill]
        cases hupd : r0.state.storage.updateOrder r0.order with
        | error e =>
          simp only
          exact ⟨hb0, hs0⟩
        | ok st =>
          obtain ⟨hb1, hs1⟩ := bookIds_updateOrder _ _ _ hupd j
          simp only
          exact ⟨hb1.trans hb0, hs1.trans hs0⟩
      · rw [if_neg hfill]
        simp only
        obtain ⟨hwb, hws⟩ := bookIds_writeThrough r0.state.storage r0.order j
        exact ⟨hwb.trans hb0, hws.trans hs0⟩

/-- C2 counterexample: a buy of 10 at 50 for `"AAPL"` against the empty
engine is settled by the synthetic fallback (its only transaction carries
the `auto-filled` counterparty and the call returns the order `.ord 0 0`),
yet the buy-side book snapshot for `"AAPL"` afterwards *does* contain an
order with that id — contradicting the claim that a fallback-settled order
is not present in the book.  The entry is marked `matched` with remaining
quantity `0`. -/
theorem c2_counterexample_order_in_book :
    ((TradingEngine.addOrder initialState .buy "AAPL" 10 50 0).2.transactions.map
      Transaction.sellOrderId = [OrderRef.autoFilled]) ∧
    ((TradingEngine.addOrder initialState .buy "AAPL" 10 50 0).1.toOption.map Order.id =
      some (OrderRef.ord 0 0)) ∧
    ((OrderStorage.getBuyOrders
        (TradingEngine.addOrder initialState .buy "AAPL" 10 50 0).2.storage "AAPL").1.map
      Order.id = [OrderRef.ord 0 0]) ∧
    ((OrderStorage.getBuyOrders
        (TradingEngine.addOrder initialState .buy "AAPL" 10 50 0).2.storage "AAPL").1.map
      Order.status = [OrderStatus.matched]) ∧
    ((OrderStorage.getBuyOrders
        (TradingEngine.addOrder initialState .buy "AAPL" 10 50 0).2.storage "AAPL").1.map
      Order.remainingQuantity = [0]) := by
  decide

/-- C2 (amended): an order settled by the synthetic-liquidity fallback *is*
present in the order book for its own side and symbol after `submit`
returns — it was inserted before matching and is never removed — but it is
marked `Filled` (`matched`) with remaining quantity `0`, so later matching
passes skip it.  Hypotheses as in the fallback theorem for C1. -/
theorem c2_amended_order_remains (s : EngineState) (type : OrderType) (sym : String)
    (q pr : Rat) (now : Nat) (st2 : OrderStorage)
    (hq : 0 < q) (hp : 0 < pr) (hb : TradingEngine.blankSymbol sym = false)
    (hsell : type = .sell → TradingEngine.insufficientFor s sym q = false)
    (hst : OrderStorage.addOrder s.storage
      (TradingEngine.newOrderOf s type sym q pr now) = .ok st2)
    (hmatch : (TradingEngine.matchOrder (TradingEngine.midState s st2)
      (TradingEngine.newOrderOf s type sym q pr now) now).txs = [])
    (herr : (TradingEngine.matchOrder (TradingEngine.midState s st2)
      (TradingEngine.newOrderOf s type sym q pr now) now).err = false) :
    ∃ o s2,
      TradingEngine.addOrder s type sym q pr now = (.ok o, s2) ∧
      ∃ e, e ∈ (if type = .buy then (OrderStorage.getBuyOrders s2.storage sym).1
                else (OrderStorage.getSellOrders s2.storage sym).1) ∧
        e.id = o.id ∧ e.status = .matched ∧ e.remainingQuantity = 0 := by
  have hqle : ¬ q ≤ 0 := not_le.mpr hq
  have hple : ¬ pr ≤ 0 := not_le.mpr hp
  have hbne : ¬ TradingEngine.blankSymbol sym = true := by simp [hb]
  have hsellne : ¬(type = .sell ∧ TradingEngine.insufficientFor s sym q = true) := by
    rintro ⟨ht, hi⟩
    rw [hsell ht] at hi
    exact Bool.noConfusion hi
  obtain ⟨hOrd, hTr, hPos, hOC, hTC, hFil⟩ := matchOrder_quiet _ _ _ hmatch herr
  obtain ⟨i, hlook2, hmemB, hmemS⟩ := storage_addOrder_ok _ _ _ hst
  obtain ⟨d, hrd⟩ := registry_matchOrder (TradingEngine.midState s st2)
    (TradingEngine.newOrderOf s type sym q pr now) now
  have hlookr : lookupTicker (TradingEngine.matchOrder (TradingEngine.midState s st2)
      (TradingEngine.newOrderOf s type sym q pr now) now).state.storage.tickerToIndex sym =
      some i := by
    rw [hrd]
    exact lookupTicker_append_of_some _ _ _ _ hlook2
  have hbookid := bookIds_matchOrder (TradingEngine.midState s st2)
    (TradingEngine.newOrderOf s type sym q pr now) now i
  simp only [TradingEngine.addOrder, if_neg hqle, if_neg hple, if_neg hbne, if_neg hsellne]
  rw [hst]
  simp only
  set r := TradingEngine.matchOrder (TradingEngine.midState s st2)
    (TradingEngine.newOrderOf s type sym q pr now) now with hrdef
  simp only [herr, Bool.false_eq_true, if_false]
  simp only [hOrd, hTC, hTr, hPos, hOC, TradingEngine.newOrderOf]
  cases type
  case buy =>
    rw [if_pos ⟨rfl, hmatch⟩]
    rw [updatePortfolio_storage]
    split
    · rename_i e hupd2
      refine absurd hupd2 (updateOrder_ne_error_of_found _ _ i ?_ e)
      exact hlookr
    · rename_i stf hupd2
      have hupd2' : OrderStorage.updateOrder r.state.storage
          ({ id := OrderRef.ord now s.orderCounter, type := OrderType.buy,
             tickerSymbol := sym, quantity := q, price := pr, timestamp := now,
             status := OrderStatus.matched, remainingQuantity := 0 } : Order) = .ok stf :=
        hupd2
      have hfound := (updateOrder_found r.state.storage
        ({ id := OrderRef.ord now s.orderCounter, type := OrderType.buy,
           tickerSymbol := sym, quantity := q, price := pr, timestamp := now,
           status := OrderStatus.matched, remainingQuantity := 0 } : Order) i hlookr).1 rfl
      have hstf : stf = r.state.storage.setBuyList i
          (replaceById (r.state.storage.buyOrders i)
            { id := OrderRef.ord now s.orderCounter, type := OrderType.buy,
              tickerSymbol := sym, quantity := q, price := pr, timestamp := now,
              status := OrderStatus.matched, remainingQuantity := 0 }) := by
        have := hupd2'.symm.trans hfound
        exact Except.ok.inj this
      refine ⟨_, _, rfl, ?_⟩
      refine ⟨{ id := OrderRef.ord now s.orderCounter, type := OrderType.buy,
                tickerSymbol := sym, quantity := q, price := pr, timestamp := now,
                status := OrderStatus.matched, remainingQuantity := 0 }, ?_, rfl, rfl, rfl⟩
      rw [if_pos rfl]
      have hlookstf : lookupTicker stf.tickerToIndex sym = some i := by
        rw [hstf]
        exact hlookr
      rw [getBuyOrders_of_found stf sym i hlookstf]
      rw [hstf]
      simp only [OrderStorage.setBuyList, if_pos rfl]
      apply mem_replaceById_self
      rw [hbookid.1]
      have hm : (TradingEngine.newOrderOf s OrderType.buy sym q pr now).id ∈
          ((TradingEngine.midState s st2).storage.buyOrders i).map Order.id :=
        List.mem_map_of_mem Order.id (hmemB rfl)
      exact hm
  case sell =>
    rw [if_neg (by rintro ⟨hc, _⟩; exact absurd hc (by decide))]
    rw [if_pos ⟨rfl, hmatch⟩]
    rw [updatePortfolio_storage]
    split
    · rename_i e hupd2
      refine absurd hupd2 (updateOrder_ne_error_of_found _ _ i ?_ e)
      exact hlookr
    · rename_i stf hupd2
      have hupd2' : OrderStorage.updateOrder r.state.storage
          ({ id := OrderRef.ord now s.orderCounter, type := OrderType.sell,
             tickerSymbol := sym, quantity := q, price := pr, timestamp := now,
             status := OrderStatus.matched, remainingQuantity := 0 } : Order) = .ok stf :=
        hupd2
      have hfound := (updateOrder_found r.state.storage
        ({ id := OrderRef.ord now s.orderCounter, type := OrderType.sell,
           tickerSymbol := sym, quantity := q, price := pr, timestamp := now,
           status := OrderStatus.matched, remainingQuantity := 0 } : Order) i hlookr).2 rfl
      have hstf : stf = r.state.storage.setSellList i
          (replaceById (r.state.storage.sellOrders i)
            { id := OrderRef.ord now s.orderCounter, type := OrderType.sell,
              tickerSymbol := sym, quantity := q, price := pr, timestamp := now,
              status := OrderStatus.matched, remainingQuantity := 0 }) := by
        have := hupd2'.symm.trans hfound
        exact Except.ok.inj this
      refine ⟨_, _, rfl, ?_⟩
      refine ⟨{ id := OrderRef.ord now s.orderCounter, type := OrderType.sell,
                tickerSymbol := sym, quantity := q, price := pr, timestamp := now,
                status := OrderStatus.matched, remainingQuantity := 0 }, ?_, rfl, rfl, rfl⟩
      rw [if_neg (by decide)]
      have hlookstf : lookupTicker stf.tickerToIndex sym = some i := by
        rw [hstf]
        exact hlookr
      rw [getSellOrders_of_found stf sym i hlookstf]
      rw [hstf]
      simp only [OrderStorage.setSellList, if_pos rfl]
      apply mem_replaceById_self
      rw [hbookid.2]
      have hm : (TradingEngine.newOrderOf s OrderType.sell sym q pr now).id ∈
          ((TradingEngine.midState s st2).storage.sellOrders i).map Order.id :=
        List.mem_map_of_mem Order.id (hmemS rfl)
      exact hm

/-! ### Claim C8: recent transactions -/

theorem enumFrom_map_snd {α : Type} : ∀ (n : Nat) (l : List α),
    (enumFrom n l).map Prod.snd = l := by
  intro n l
  induction l generalizing n with
  | nil => rfl
  | cons x rest ih => simp [enumFrom, ih]

theorem mem_enumFrom {α : Type} : ∀ (l : List α) (n : Nat) (p : Nat × α),
    p ∈ enumFrom n l → n ≤ p.1 := by
  intro l
  induction l with
  | nil => intro n p h; simp [enumFrom] at h
  | cons x rest ih =>
    intro n p h
    rw [enumFrom] at h
    rcases List.mem_cons.mp h with h1 | h1
    · rw [h1]
    · exact le_of_lt (lt_of_lt_of_le (Nat.lt_succ_self n) (ih (n + 1) p h1))

theorem pairwise_enumFrom {α : Type} : ∀ (l : List α) (n : Nat),
    List.Pairwise (fun p q => p.1 < q.1) (enumFrom n l) := by
  intro l
  induction l with
  | nil => intro n; simp [enumFrom]
  | cons x rest ih =>
    intro n
    rw [enumFrom]
    refine List.Pairwise.cons ?_ (ih (n + 1))
    intro q hq
    exact lt_of_lt_of_le (Nat.lt_succ_self n) (mem_enumFrom rest (n + 1) q hq)

theorem orderedInsert_key (p : Nat × Transaction) :
    ∀ (S : List (Nat × Transaction)), (∀ q ∈ S, p.1 < q.1) →
      (List.orderedInsert recentKeyLE p S).map Prod.snd =
        List.orderedInsert TradingEngine.txDescLE p.2 (S.map Prod.snd) := by
  intro S
  induction S with
  | nil => intro _; rfl
  | cons q S ih =>
    intro hS
    have hpq : p.1 < q.1 := hS q (by simp)
    have hiff : recentKeyLE p q ↔ TradingEngine.txDescLE p.2 q.2 := by
      unfold recentKeyLE TradingEngine.txDescLE
      constructor
      · rintro (h | ⟨h, _⟩)
        · exact le_of_lt h
        · exact le_of_eq h.symm
      · intro h
        rcases lt_or_eq_of_le h with h1 | h1
        · exact Or.inl h1
        · exact Or.inr ⟨h1.symm, le_of_lt hpq⟩
    rw [List.map_cons, List.orderedInsert, List.orderedInsert]
    by_cases hc : TradingEngine.txDescLE p.2 q.2
    · rw [if_pos (hiff.mpr hc), if_pos hc]
      simp
    · rw [if_neg (fun hk => hc (hiff.mp hk)), if_neg hc]
      simp only [List.map_cons]
      rw [ih (fun x hx => hS x (by simp [hx]))]

theorem insertionSort_key : ∀ (E : List (Nat × Transaction)),
    List.Pairwise (fun p q => p.1 < q.1) E →
    (List.insertionSort recentKeyLE E).map Prod.snd =
      List.insertionSort TradingEngine.txDescLE (E.map Prod.snd) := by
  intro E
  induction E with
  | nil => intro _; rfl
  | cons p E ih =>
    intro hE
    rw [List.map_cons, List.insertionSort, List.insertionSort]
    rw [← ih (List.Pairwise.of_cons hE)]
    apply orderedInsert_key
    intro q hq
    exact List.rel_of_pairwise_cons hE ((List.mem_insertionSort _).mp hq)

/-- C8: `getRecentTransactions n` returns at most `n` transactions; it is
exactly the first `n` entries of the spec's arrangement of the log (by
`occurredAt` descending, ties broken by insertion order); it is sorted by
timestamp descending; and it consists of `n` transactions of maximal
timestamp: the remainder of the log (as a multiset) only holds transactions
with timestamps no greater than any returned one. -/
theorem c8_recent_transactions (s : EngineState) (n : Nat) :
    (TradingEngine.getRecentTransactions s n).length ≤ n ∧
    TradingEngine.getRecentTransactions s n = (specRecentArrangement s.transactions).take n ∧
    List.Sorted TradingEngine.txDescLE (TradingEngine.getRecentTransactions s n) ∧
    ∃ rest, s.transactions.Perm (TradingEngine.getRecentTransactions s n ++ rest) ∧
      ∀ a ∈ TradingEngine.getRecentTransactions s n, ∀ b ∈ rest,
        b.timestamp ≤ a.timestamp := by
  have hspec : specRecentArrangement s.transactions =
      List.insertionSort TradingEngine.txDescLE s.transactions := by
    rw [specRecentArrangement, insertionSort_key _ (pairwise_enumFrom s.transactions 0),
      enumFrom_map_snd]
  refine ⟨?_, ?_, ?_, ?_⟩
  · exact List.length_take_le n _
  · rw [TradingEngine.getRecentTransactions, hspec]
  · exact (List.sorted_insertionSort TradingEngine.txDescLE s.transactions).sublist
      (List.take_sublist n _)
  · refine ⟨(List.insertionSort TradingEngine.txDescLE s.transactions).drop n, ?_, ?_⟩
    · rw [TradingEngine.getRecentTransactions, List.take_append_drop]
      exact (List.perm_insertionSort TradingEngine.txDescLE s.transactions).symm
    · intro a ha b hb
      have hsorted := List.sorted_insertionSort TradingEngine.txDescLE s.transactions
      rw [← List.take_append_drop n
        (List.insertionSort TradingEngine.txDescLE s.transactions)] at hsorted
      exact (List.pairwise_append.mp hsorted).2.2 a ha b hb

/-! ### Order-book invariant machinery (claims C6 and C7) -/

theorem lookupTicker_mem_snd : ∀ (l : List (String × Nat)) (s : String) (i : Nat),
    lookupTicker l s = some i → i ∈ l.map Prod.snd := by
  intro l
  induction l with
  | nil => intro s i h; exact absurd h (by simp [lookupTicker])
  | cons p rest ih =>
    intro s i h
    cases p with
    | mk sym j =>
      rw [lookupTicker] at h
      by_cases hs : sym = s
      · rw [if_pos hs] at h
        simp [Option.some.inj h]
      · rw [if_neg hs] at h
        simp [ih s i h]

theorem bidLE_congr_left (a a' b : Order) (hp : a.price = a'.price)
    (ht : a.timestamp = a'.timestamp) : bidLE a b ↔ bidLE a' b := by
  unfold bidLE
  rw [hp, ht]

theorem bidLE_congr_right (a b b' : Order) (hp : b.price = b'.price)
    (ht : b.timestamp = b'.timestamp) : bidLE a b ↔ bidLE a b' := by
  unfold bidLE
  rw [hp, ht]

theorem askLE_congr_left (a a' b : Order) (hp : a.price = a'.price)
    (ht : a.timestamp = a'.timestamp) : askLE a b ↔ askLE a' b := by
  unfold askLE
  rw [hp, ht]

theorem askLE_congr_right (a b b' : Order) (hp : b.price = b'.price)
    (ht : b.timestamp = b'.timestamp) : askLE a b ↔ askLE a b' := by
  unfold askLE
  rw [hp, ht]

theorem orderCore_fields (o1 o2 : Order) (h : orderCore o1 = orderCore o2) :
    o1.id = o2.id ∧ o1.type = o2.type ∧ o1.tickerSymbol = o2.tickerSymbol ∧
    o1.quantity = o2.quantity ∧ o1.price = o2.price ∧ o1.timestamp = o2.timestamp := by
  simp only [orderCore, Prod.mk.injEq] at h
  exact h

theorem mem_replaceById_cases : ∀ (l : List Order) (o x : Order),
    x ∈ replaceById l o → x ∈ l ∨ (x = o ∧ ∃ e ∈ l, e.id = o.id) := by
  intro l
  induction l with
  | nil => intro o x h; exact absurd h (by simp [replaceById])
  | cons a rest ih =>
    intro o x h
    rw [replaceById] at h
    by_cases ha : a.id = o.id
    · rw [if_pos ha] at h
      rcases List.mem_cons.mp h with h1 | h1
      · exact Or.inr ⟨h1, a, by simp, ha⟩
      · exact Or.inl (List.mem_cons_of_mem _ h1)
    · rw [if_neg ha] at h
      rcases List.mem_cons.mp h with h1 | h1
      · exact Or.inl (by simp [h1])
      · rcases ih o x h1 with h2 | ⟨h2, e, he, heid⟩
        · exact Or.inl (List.mem_cons_of_mem _ h2)
        · exact Or.inr ⟨h2, e, List.mem_cons_of_mem _ he, heid⟩

theorem mem_replaceById_of_ne : ∀ (l : List Order) (o x : Order),
    x ∈ l → x.id ≠ o.id → x ∈ replaceById l o := by
  intro l
  induction l with
  | nil => intro o x h _; exact absurd h (by simp)
  | cons a rest ih =>
    intro o x h hne
    rw [replaceById]
    by_cases ha : a.id = o.id
    · rw [if_pos ha]
      rcases List.mem_cons.mp h with h1 | h1
      · subst h1
        exact absurd ha hne
      · exact List.mem_cons_of_mem _ h1
    · rw [if_neg ha]
      rcases List.mem_cons.mp h with h1 | h1
      · simp [h1]
      · exact List.mem_cons_of_mem _ (ih o x h1 hne)

theorem eq_of_mem_replaceById : ∀ (l : List Order) (o x : Order),
    (l.map Order.id).Nodup → x ∈ replaceById l o → x.id = o.id → x = o := by
  intro l
  induction l with
  | nil => intro o x _ h _; exact absurd h (by simp [replaceById])
  | cons a rest ih =>
    intro o x hnd h hx
    rw [replaceById] at h
    rw [List.map_cons, List.nodup_cons] at hnd
    by_cases ha : a.id = o.id
    · rw [if_pos ha] at h
      rcases List.mem_cons.mp h with h1 | h1
      · exact h1
      · have hin : a.id ∈ rest.map Order.id := by
          rw [ha, ← hx]
          exact List.mem_map_of_mem Order.id h1
        exact absurd hin hnd.1
    · rw [if_neg ha] at h
      rcases List.mem_cons.mp h with h1 | h1
      · subst h1
        exact absurd hx ha
      · exact ih o x hnd.2 h1 hx

theorem replaceById_sorted (r : Order → Order → Prop)
    (hcl : ∀ a a' b, a.price = a'.price → a.timestamp = a'.timestamp → r a b → r a' b)
    (hcr : ∀ a b b', b.price = b'.price → b.timestamp = b'.timestamp → r a b → r a b') :
    ∀ (l : List Order) (o : Order), List.Pairwise r l →
      (∀ e ∈ l, e.id = o.id → e.price = o.price ∧ e.timestamp = o.timestamp) →
      List.Pairwise r (replaceById l o) := by
  intro l
  induction l with
  | nil => intro o _ _; simp [replaceById]
  | cons a rest ih =>
    intro o hp hagree
    rw [List.pairwise_cons] at hp
    rw [replaceById]
    by_cases ha : a.id = o.id
    · rw [if_pos ha]
      refine List.Pairwise.cons ?_ hp.2
      intro x hx
      obtain ⟨hpr, hts⟩ := hagree a (by simp) ha
      exact hcl a o x hpr hts (hp.1 x hx)
    · rw [if_neg ha]
      refine List.Pairwise.cons ?_ (ih o hp.2 (fun e he => hagree e (by simp [he])))
      intro x hx
      rcases mem_replaceById_cases rest o x hx with h1 | ⟨h1, e, he, heid⟩
      · exact hp.1 x h1
      · rw [h1]
        obtain ⟨hpr, hts⟩ := hagree e (by simp [he]) heid
        exact hcr a e o hpr hts (hp.1 e he)

theorem storageInv_mono {st : OrderStorage} {c1 c2 : Nat} (h : StorageInv st c1)
    (hc : c1 ≤ c2) : StorageInv st c2 := by
  refine ⟨h.regIdx, h.highBuy, h.highSell, h.sortedBuy, h.sortedSell, h.nodupBuy,
    h.nodupSell, h.cohBuy, h.cohSell, h.uniq, ?_, h.ordOk⟩
  intro o ho
  obtain ⟨t, c, hoc, hlt⟩ := h.fresh o ho
  exact ⟨t, c, hoc, lt_of_lt_of_le hlt hc⟩

theorem storageInv_initial : StorageInv initialStorage 0 := by
  refine ⟨rfl, fun i _ => rfl, fun i _ => rfl, fun i => List.sorted_nil,
    fun i => List.sorted_nil, fun i => List.nodup_nil, fun i => List.nodup_nil,
    ?_, ?_, ?_, ?_, ?_⟩
  · intro i o ho
    exact absurd ho (by simp [initialStorage])
  · intro i o ho
    exact absurd ho (by simp [initialStorage])
  · intro o1 o2 h1 _ _
    obtain ⟨i, hi | hi⟩ := h1 <;> exact absurd hi (by simp [initialStorage])
  · intro o ho
    obtain ⟨i, hi | hi⟩ := ho <;> exact absurd hi (by simp [initialStorage])
  · intro o ho
    obtain ⟨i, hi | hi⟩ := ho <;> exact absurd hi (by simp [initialStorage])

theorem storageInv_getTickerIndex (st : OrderStorage) (sym : String) (ctr : Nat)
    (h : StorageInv st ctr) : StorageInv (st.getTickerIndex sym).2 ctr := by
  rw [OrderStorage.getTickerIndex]
  cases hl : lookupTicker st.tickerToIndex sym with
  | some i => exact h
  | none =>
    by_cases hr : st.nextIndex < MAX_TICKERS
    · rw [if_pos hr]
      refine ⟨?_, ?_, ?_, h.sortedBuy, h.sortedSell, h.nodupBuy, h.nodupSell, ?_, ?_,
        h.uniq, h.fresh, h.ordOk⟩
      · show (st.tickerToIndex ++ [(sym, st.nextIndex)]).map Prod.snd =
          List.range (st.nextIndex + 1)
        rw [List.map_append, h.regIdx, List.range_succ]
        rfl
      · intro i hi
        exact h.highBuy i (le_trans (Nat.le_succ _) hi)
      · intro i hi
        exact h.highSell i (le_trans (Nat.le_succ _) hi)
      · intro i o ho
        obtain ⟨ht, hlk⟩ := h.cohBuy i o ho
        exact ⟨ht, lookupTicker_append_of_some _ _ _ _ hlk⟩
      · intro i o ho
        obtain ⟨ht, hlk⟩ := h.cohSell i o ho
        exact ⟨ht, lookupTicker_append_of_some _ _ _ _ hlk⟩
    · rw [if_neg hr]
      exact h

theorem getBuyOrders_snd (st : OrderStorage) (sym : String) :
    (st.getBuyOrders sym).2 = (st.getTickerIndex sym).2 := by
  rw [OrderStorage.getBuyOrders]
  cases h : st.getTickerIndex sym with
  | mk e st1 =>
    cases e with
    | ok i => rfl
    | error u => rfl

theorem getSellOrders_snd (st : OrderStorage) (sym : String) :
    (st.getSellOrders sym).2 = (st.getTickerIndex sym).2 := by
  rw [OrderStorage.getSellOrders]
  cases h : st.getTickerIndex sym with
  | mk e st1 =>
    cases e with
    | ok i => rfl
    | error u => rfl

theorem tracks_refl (st : OrderStorage) : Tracks st st :=
  fun o2 h => ⟨o2, h, rfl, le_refl _⟩

theorem tracks_trans {st1 st2 st3 : OrderStorage} (h12 : Tracks st1 st2)
    (h23 : Tracks st2 st3) : Tracks st1 st3 := by
  intro o3 h3
  obtain ⟨o2, h2, hid2, hr2⟩ := h23 o3 h3
  obtain ⟨o1, h1, hid1, hr1⟩ := h12 o2 h2
  exact ⟨o1, h1, hid1.trans hid2, le_trans hr2 hr1⟩

theorem orderOk_decrement (x : Order) (d : Rat) (hx : OrderOkProp x) (hd : 0 < d)
    (hdle : d ≤ x.remainingQuantity) :
    OrderOkProp (TradingEngine.bumpStatus
        { x with remainingQuantity := x.remainingQuantity - d }) ∧
    orderCore (TradingEngine.bumpStatus
        { x with remainingQuantity := x.remainingQuantity - d }) = orderCore x ∧
    (TradingEngine.bumpStatus
        { x with remainingQuantity := x.remainingQuantity - d }).remainingQuantity ≤
      x.remainingQuantity := by
  obtain ⟨hx0, hxq, hxm, hxp⟩ := hx
  have hrm : (TradingEngine.bumpStatus
      { x with remainingQuantity := x.remainingQuantity - d }).remainingQuantity =
      x.remainingQuantity - d := bumpStatus_remainingQuantity _
  have hcore : orderCore (TradingEngine.bumpStatus
      { x with remainingQuantity := x.remainingQuantity - d }) = orderCore x :=
    bumpStatus_core _
  have hsub0 : (0 : Rat) ≤ x.remainingQuantity - d := sub_nonneg.mpr hdle
  have hsublt : x.remainingQuantity - d < x.remainingQuantity := sub_lt_self _ hd
  have hsuble : x.remainingQuantity - d ≤ x.quantity := le_trans (le_of_lt hsublt) hxq
  refine ⟨⟨?_, ?_, ?_, ?_⟩, hcore, ?_⟩
  · rw [hrm]; exact hsub0
  · rw [hrm, bumpStatus_quantity]
    exact hsuble
  · rw [TradingEngine.bumpStatus]
    by_cases h0 : ({ x with remainingQuantity := x.remainingQuantity - d } :
        Order).remainingQuantity = (0 : Rat)
    · rw [if_pos h0]
      exact ⟨fun _ => h0, fun _ => rfl⟩
    · rw [if_neg h0]
      exact ⟨fun hc => OrderStatus.noConfusion hc, fun hc => absurd hc h0⟩
  · rw [TradingEngine.bumpStatus]
    by_cases h0 : ({ x with remainingQuantity := x.remainingQuantity - d } :
        Order).remainingQuantity = (0 : Rat)
    · rw [if_pos h0]
      intro hc
      exact OrderStatus.noConfusion hc
    · rw [if_neg h0]
      intro _
      refine ⟨lt_of_le_of_ne hsub0 (Ne.symm h0), ?_⟩
      show x.remainingQuantity - d < ({ x with
        remainingQuantity := x.remainingQuantity - d } : Order).quantity
      exact lt_of_lt_of_le hsublt hxq
  · rw [hrm]
    exact le_of_lt hsublt

theorem storageInv_setBuy_replace (st : OrderStorage) (o : Order) (i ctr : Nat)
    (hinv : StorageInv st ctr)
    (hlook : lookupTicker st.tickerToIndex o.tickerSymbol = some i)
    (htype : o.type = .buy)
    (hok : OrderOkProp o)
    (hglob : ∀ e, InBooks st e → e.id = o.id → orderCore e = orderCore o ∧
      o.remainingQuantity ≤ e.remainingQuantity) :
    StorageInv (st.setBuyList i (replaceById (st.buyOrders i) o)) ctr ∧
    Tracks st (st.setBuyList i (replaceById (st.buyOrders i) o)) ∧
    (∀ x, InBooks (st.setBuyList i (replaceById (st.buyOrders i) o)) x →
      InBooks st x ∨ x = o) ∧
    (∀ x, InBooks st x → x.id ≠ o.id →
      InBooks (st.setBuyList i (replaceById (st.buyOrders i) o)) x) := by
  set st' := st.setBuyList i (replaceById (st.buyOrders i) o) with hst'
  have hbuy' : ∀ j, st'.buyOrders j =
      if j = i then replaceById (st.buyOrders i) o else st.buyOrders j := fun j => rfl
  have hsell' : ∀ j, st'.sellOrders j = st.sellOrders j := fun j => rfl
  have hcases : ∀ x, InBooks st' x →
      InBooks st x ∨ (x = o ∧ ∃ e, InBooks st e ∧ e.id = o.id) := by
    intro x hx
    obtain ⟨j, hj | hj⟩ := hx
    · rw [hbuy' j] at hj
      by_cases hji : j = i
      · rw [if_pos hji] at hj
        rcases mem_replaceById_cases _ _ _ hj with h1 | ⟨h1, e, he, heid⟩
        · exact Or.inl ⟨i, Or.inl h1⟩
        · exact Or.inr ⟨h1, e, ⟨i, Or.inl he⟩, heid⟩
      · rw [if_neg hji] at hj
        exact Or.inl ⟨j, Or.inl hj⟩
    · rw [hsell' j] at hj
      exact Or.inl ⟨j, Or.inr hj⟩
  have hidKey : ∀ x, InBooks st' x → x.id = o.id → x = o := by
    intro x hx hxid
    obtain ⟨j, hj | hj⟩ := hx
    · rw [hbuy' j] at hj
      by_cases hji : j = i
      · rw [if_pos hji] at hj
        exact eq_of_mem_replaceById _ _ _ (hinv.nodupBuy i) hj hxid
      · rw [if_neg hji] at hj
        obtain ⟨hcore, _⟩ := hglob x ⟨j, Or.inl hj⟩ hxid
        obtain ⟨_, _, hsym, _, _, _⟩ := orderCore_fields x o hcore
        obtain ⟨_, hlk⟩ := hinv.cohBuy j x hj
        rw [hsym, hlook] at hlk
        exact absurd (Option.some.inj hlk).symm hji
    · rw [hsell' j] at hj
      obtain ⟨hcore, _⟩ := hglob x ⟨j, Or.inr hj⟩ hxid
      obtain ⟨_, htp, _, _, _, _⟩ := orderCore_fields x o hcore
      obtain ⟨hts, _⟩ := hinv.cohSell j x hj
      exact absurd ((hts.symm.trans htp).trans htype) (by decide)
  refine ⟨⟨hinv.regIdx, ?_, hinv.highSell, ?_, hinv.sortedSell, ?_, hinv.nodupSell,
    ?_, hinv.cohSell, ?_, ?_, ?_⟩, ?_, ?_, ?_⟩
  · -- highBuy
    intro j hj
    rw [hbuy' j]
    by_cases hji : j = i
    · rw [if_pos hji]
      have hemp : st.buyOrders i = [] := hinv.highBuy i (hji ▸ hj)
      rw [hemp]
      rfl
    · rw [if_neg hji]
      exact hinv.highBuy j hj
  · -- sortedBuy
    intro j
    rw [hbuy' j]
    by_cases hji : j = i
    · rw [if_pos hji]
      refine replaceById_sorted bidLE ?_ ?_ (st.buyOrders i) o (hinv.sortedBuy i) ?_
      · exact fun a a' b hp ht h => (bidLE_congr_left a a' b hp ht).mp h
      · exact fun a b b' hp ht h => (bidLE_congr_right a b b' hp ht).mp h
      · intro e he heid
        obtain ⟨hcore, _⟩ := hglob e ⟨i, Or.inl he⟩ heid
        obtain ⟨_, _, _, _, hpr, hts⟩ := orderCore_fields e o hcore
        exact ⟨hpr, hts⟩
    · rw [if_neg hji]
      exact hinv.sortedBuy j
  · -- nodupBuy
    intro j
    rw [hbuy' j]
    by_cases hji : j = i
    · rw [if_pos hji, replaceById_map_id]
      exact hinv.nodupBuy i
    · rw [if_neg hji]
      exact hinv.nodupBuy j
  · -- cohBuy
    intro j e he
    rw [hbuy' j] at he
    by_cases hji : j = i
    · subst hji
      rw [if_pos rfl] at he
      rcases mem_replaceById_cases _ _ _ he with h1 | ⟨h1, _, _, _⟩
      · exact hinv.cohBuy j e h1
      · subst h1
        exact ⟨htype, hlook⟩
    · rw [if_neg hji] at he
      exact hinv.cohBuy j e he
  · -- uniq
    intro x1 x2 h1 h2 hid12
    rcases hcases x1 h1 with hx1 | ⟨hx1, e1, he1, heid1⟩
    · rcases hcases x2 h2 with hx2 | ⟨hx2, _, _, _⟩
      · exact hinv.uniq x1 x2 hx1 hx2 hid12
      · subst hx2
        exact hidKey x1 h1 hid12
    · subst hx1
      rcases hcases x2 h2 with hx2 | ⟨hx2, _, _, _⟩
      · exact (hidKey x2 h2 hid12.symm).symm
      · exact hx2.symm
  · -- fresh
    intro x hx
    rcases hcases x hx with h1 | ⟨h1, e, he, heid⟩
    · exact hinv.fresh x h1
    · subst h1
      obtain ⟨t, c, heid2, hc⟩ := hinv.fresh e he
      exact ⟨t, c, heid ▸ heid2, hc⟩
  · -- ordOk
    intro x hx
    rcases hcases x hx with h1 | ⟨h1, _, _, _⟩
    · exact hinv.ordOk x h1
    · subst h1
      exact hok
  · -- Tracks
    intro o2 h2
    rcases hcases o2 h2 with h1 | ⟨h1, e, he, heid⟩
    · exact ⟨o2, h1, rfl, le_refl _⟩
    · subst h1
      obtain ⟨_, hrem⟩ := hglob e he heid
      exact ⟨e, he, heid, hrem⟩
  · -- characterisation
    intro x hx
    rcases hcases x hx with h1 | ⟨h1, _, _, _⟩
    · exact Or.inl h1
    · exact Or.inr h1
  · -- entries with another id are kept
    intro x hx hne
    obtain ⟨j, hj | hj⟩ := hx
    · by_cases hji : j = i
      · subst hji
        refine ⟨j, Or.inl ?_⟩
        rw [hbuy' j, if_pos rfl]
        exact mem_replaceById_of_ne _ _ _ hj hne
      · refine ⟨j, Or.inl ?_⟩
        rw [hbuy' j, if_neg hji]
        exact hj
    · exact ⟨j, Or.inr hj⟩

theorem storageInv_setSell_replace (st : OrderStorage) (o : Order) (i ctr : Nat)
    (hinv : StorageInv st ctr)
    (hlook : lookupTicker st.tickerToIndex o.tickerSymbol = some i)
    (htype : o.type = .sell)
    (hok : OrderOkProp o)
    (hglob : ∀ e, InBooks st e → e.id = o.id → orderCore e = orderCore o ∧
      o.remainingQuantity ≤ e.remainingQuantity) :
    StorageInv (st.setSellList i (replaceById (st.sellOrders i) o)) ctr ∧
    Tracks st (st.setSellList i (replaceById (st.sellOrders i) o)) ∧
    (∀ x, InBooks (st.setSellList i (replaceById (st.sellOrders i) o)) x →
      InBooks st x ∨ x = o) ∧
    (∀ x, InBooks st x → x.id ≠ o.id →
      InBooks (st.setSellList i (replaceById (st.sellOrders i) o)) x) := by
  set st' := st.setSellList i (replaceById (st.sellOrders i) o) with hst'
  have hsell' : ∀ j, st'.sellOrders j =
      if j = i then replaceById (st.sellOrders i) o else st.sellOrders j := fun j => rfl
  have hbuy' : ∀ j, st'.buyOrders j = st.buyOrders j := fun j => rfl
  have hcases : ∀ x, InBooks st' x →
      InBooks st x ∨ (x = o ∧ ∃ e, InBooks st e ∧ e.id = o.id) := by
    intro x hx
    obtain ⟨j, hj | hj⟩ := hx
    · rw [hbuy' j] at hj
      exact Or.inl ⟨j, Or.inl hj⟩
    · rw [hsell' j] at hj
      by_cases hji : j = i
      · rw [if_pos hji] at hj
        rcases mem_replaceById_cases _ _ _ hj with h1 | ⟨h1, e, he, heid⟩
        · exact Or.inl ⟨i, Or.inr h1⟩
        · exact Or.inr ⟨h1, e, ⟨i, Or.inr he⟩, heid⟩
      · rw [if_neg hji] at hj
        exact Or.inl ⟨j, Or.inr hj⟩
  have hidKey : ∀ x, InBooks st' x → x.id = o.id → x = o := by
    intro x hx hxid
    obtain ⟨j, hj | hj⟩ := hx
    · rw [hbuy' j] at hj
      obtain ⟨hcore, _⟩ := hglob x ⟨j, Or.inl hj⟩ hxid
      obtain ⟨_, htp, _, _, _, _⟩ := orderCore_fields x o hcore
      obtain ⟨hts, _⟩ := hinv.cohBuy j x hj
      exact absurd ((hts.symm.trans htp).trans htype) (by decide)
    · rw [hsell' j] at hj
      by_cases hji : j = i
      · rw [if_pos hji] at hj
        exact eq_of_mem_replaceById _ _ _ (hinv.nodupSell i) hj hxid
      · rw [if_neg hji] at hj
        obtain ⟨hcore, _⟩ := hglob x ⟨j, Or.inr hj⟩ hxid
        obtain ⟨_, _, hsym, _, _, _⟩ := orderCore_fields x o hcore
        obtain ⟨_, hlk⟩ := hinv.cohSell j x hj
        rw [hsym, hlook] at hlk
        exact absurd (Option.some.inj hlk).symm hji
  refine ⟨⟨hinv.regIdx, hinv.highBuy, ?_, hinv.sortedBuy, ?_, hinv.nodupBuy, ?_,
    hinv.cohBuy, ?_, ?_, ?_, ?_⟩, ?_, ?_, ?_⟩
  · -- highSell
    intro j hj
    rw [hsell' j]
    by_cases hji : j = i
    · rw [if_pos hji]
      have hemp : st.sellOrders i = [] := hinv.highSell i (hji ▸ hj)
      rw [hemp]
      rfl
    · rw [if_neg hji]
      exact hinv.highSell j hj
  · -- sortedSell
    intro j
    rw [hsell' j]
    by_cases hji : j = i
    · rw [if_pos hji]
      refine replaceById_sorted askLE ?_ ?_ (st.sellOrders i) o (hinv.sortedSell i) ?_
      · exact fun a a' b hp ht h => (askLE_congr_left a a' b hp ht).mp h
      · exact fun a b b' hp ht h => (askLE_congr_right a b b' hp ht).mp h
      · intro e he heid
        obtain ⟨hcore, _⟩ := hglob e ⟨i, Or.inr he⟩ heid
        obtain ⟨_, _, _, _, hpr, hts⟩ := orderCore_fields e o hcore
        exact ⟨hpr, hts⟩
    · rw [if_neg hji]
      exact hinv.sortedSell j
  · -- nodupSell
    intro j
    rw [hsell' j]
    by_cases hji : j = i
    · rw [if_pos hji, replaceById_map_id]
      exact hinv.nodupSell i
    · rw [if_neg hji]
      exact hinv.nodupSell j
  · -- cohSell
    intro j e he
    rw [hsell' j] at he
    by_cases hji : j = i
    · subst hji
      rw [if_pos rfl] at he
      rcases mem_replaceById_cases _ _ _ he with h1 | ⟨h1, _, _, _⟩
      · exact hinv.cohSell j e h1
      · subst h1
        exact ⟨htype, hlook⟩
    · rw [if_neg hji] at he
      exact hinv.cohSell j e he
  · -- uniq
    intro x1 x2 h1 h2 hid12
    rcases hcases x1 h1 with hx1 | ⟨hx1, e1, he1, heid1⟩
    · rcases hcases x2 h2 with hx2 | ⟨hx2, _, _, _⟩
      · exact hinv.uniq x1 x2 hx1 hx2 hid12
      · subst hx2
        exact hidKey x1 h1 hid12
    · subst hx1
      rcases hcases x2 h2 with hx2 | ⟨hx2, _, _, _⟩
      · exact (hidKey x2 h2 hid12.symm).symm
      · exact hx2.symm
  · -- fresh
    intro x hx
    rcases hcases x hx with h1 | ⟨h1, e, he, heid⟩
    · exact hinv.fresh x h1
    · subst h1
      obtain ⟨t, c, heid2, hc⟩ := hinv.fresh e he
      exact ⟨t, c, heid ▸ heid2, hc⟩
  · -- ordOk
    intro x hx
    rcases hcases x hx with h1 | ⟨h1, _, _, _⟩
    · exact hinv.ordOk x h1
    · subst h1
      exact hok
  · -- Tracks
    intro o2 h2
    rcases hcases o2 h2 with h1 | ⟨h1, e, he, heid⟩
    · exact ⟨o2, h1, rfl, le_refl _⟩
    · subst h1
      obtain ⟨_, hrem⟩ := hglob e he heid
      exact ⟨e, he, heid, hrem⟩
  · -- characterisation
    intro x hx
    rcases hcases x hx with h1 | ⟨h1, _, _, _⟩
    · exact Or.inl h1
    · exact Or.inr h1
  · -- entries with another id are kept
    intro x hx hne
    obtain ⟨j, hj | hj⟩ := hx
    · exact ⟨j, Or.inl hj⟩
    · by_cases hji : j = i
      · subst hji
        refine ⟨j, Or.inr ?_⟩
        rw [hsell' j, if_pos rfl]
        exact mem_replaceById_of_ne _ _ _ hj hne
      · refine ⟨j, Or.inr ?_⟩
        rw [hsell' j, if_neg hji]
        exact hj

theorem storageInv_updateOrder (st : OrderStorage) (o : Order) (i ctr : Nat)
    (st2 : OrderStorage)
    (hinv : StorageInv st ctr)
    (hlook : lookupTicker st.tickerToIndex o.tickerSymbol = some i)
    (hok : OrderOkProp o)
    (hglob : ∀ e, InBooks st e → e.id = o.id → orderCore e = orderCore o ∧
      o.remainingQuantity ≤ e.remainingQuantity)
    (hupd : st.updateOrder o = .ok st2) :
    StorageInv st2 ctr ∧ Tracks st st2 ∧
    (∀ x, InBooks st2 x → InBooks st x ∨ x = o) ∧
    (∀ x, InBooks st x → x.id ≠ o.id → InBooks st2 x) := by
  obtain ⟨hb, hs⟩ := updateOrder_found st o i hlook
  cases ht : o.type
  case buy =>
    rw [hb ht] at hupd
    injection hupd with hupd
    subst hupd
    exact storageInv_setBuy_replace st o i ctr hinv hlook ht hok hglob
  case sell =>
    rw [hs ht] at hupd
    injection hupd with hupd
    subst hupd
    exact storageInv_setSell_replace st o i ctr hinv hlook ht hok hglob

theorem storageInv_writeThrough (st : OrderStorage) (o : Order) (ctr : Nat)
    (hinv : StorageInv st ctr)
    (hok : OrderOkProp o)
    (hglob : ∀ e, InBooks st e → e.id = o.id → orderCore e = orderCore o ∧
      o.remainingQuantity ≤ e.remainingQuantity) :
    StorageInv (st.writeThrough o) ctr ∧ Tracks st (st.writeThrough o) ∧
    (∀ x, InBooks (st.writeThrough o) x → InBooks st x ∨ x = o) ∧
    (∀ x, InBooks st x → x.id ≠ o.id → InBooks (st.writeThrough o) x) := by
  rw [OrderStorage.writeThrough]
  cases hl : lookupTicker st.tickerToIndex o.tickerSymbol with
  | none => exact ⟨hinv, tracks_refl st, fun x hx => Or.inl hx, fun x hx _ => hx⟩
  | some i =>
    cases ht : o.type
    case buy => exact storageInv_setBuy_replace st o i ctr hinv hl ht hok hglob
    case sell => exact storageInv_setSell_replace st o i ctr hinv hl ht hok hglob

theorem storageInv_storage_addOrder (st : OrderStorage) (o : Order) (ctr now : Nat)
    (st2 : OrderStorage)
    (hinv : StorageInv st ctr)
    (hid : o.id = .ord now ctr)
    (hok : OrderOkProp o)
    (hadd : OrderStorage.addOrder st o = .ok st2) :
    StorageInv st2 (ctr + 1) ∧
    (∀ x, InBooks st2 x → InBooks st x ∨ x = o) ∧
    InBooks st2 o := by
  rw [OrderStorage.addOrder] at hadd
  cases hidx : st.getTickerIndex o.tickerSymbol with
  | mk e0 st1 =>
    rw [hidx] at hadd
    cases e0 with
    | error u => exact absurd hadd (by simp)
    | ok i =>
      have hinv1 : StorageInv st1 ctr := by
        have h := storageInv_getTickerIndex st o.tickerSymbol ctr hinv
        rw [hidx] at h
        exact h
      have hbooks := books_getTickerIndex st o.tickerSymbol
      rw [hidx] at hbooks
      replace hbooks : st1.buyOrders = st.buyOrders ∧ st1.sellOrders = st.sellOrders :=
        hbooks
      have hIn1 : ∀ x, InBooks st1 x → InBooks st x := by
        intro x hx
        obtain ⟨j, hj | hj⟩ := hx
        · exact ⟨j, Or.inl (hbooks.1 ▸ hj)⟩
        · exact ⟨j, Or.inr (hbooks.2 ▸ hj)⟩
      have hlook1 : lookupTicker st1.tickerToIndex o.tickerSymbol = some i :=
        getTickerIndex_ok_lookup st _ i st1 hidx
      have hi : i < st1.nextIndex := by
        have hm := lookupTicker_mem_snd st1.tickerToIndex o.tickerSymbol i hlook1
        rw [hinv1.regIdx] at hm
        exact List.mem_range.mp hm
      have hfreshid : ∀ x, InBooks st1 x → x.id ≠ o.id := by
        intro x hx heq
        obtain ⟨t, c, hxid, hc⟩ := hinv1.fresh x hx
        rw [hxid, hid] at heq
        simp only [OrderRef.ord.injEq] at heq
        omega
      cases ht : o.type
      case buy =>
        rw [ht] at hadd
        simp only [Except.ok.injEq] at hadd
        subst hadd
        set L2 := List.insertionSort bidLE (st1.buyOrders i ++ [o]) with hL2
        have hmemL2 : ∀ x, x ∈ L2 → x ∈ st1.buyOrders i ∨ x = o := by
          intro x hx
          rw [hL2, List.mem_insertionSort] at hx
          rcases List.mem_append.mp hx with h1 | h1
          · exact Or.inl h1
          · exact Or.inr (List.mem_singleton.mp h1)
        have hbuy2 : ∀ j, (st1.setBuyList i L2).buyOrders j =
            if j = i then L2 else st1.buyOrders j := fun j => rfl
        have hsell2 : ∀ j, (st1.setBuyList i L2).sellOrders j = st1.sellOrders j :=
          fun j => rfl
        have hcases : ∀ x, InBooks (st1.setBuyList i L2) x → InBooks st1 x ∨ x = o := by
          intro x hx
          obtain ⟨j, hj | hj⟩ := hx
          · rw [hbuy2 j] at hj
            by_cases hji : j = i
            · rw [if_pos hji] at hj
              rcases hmemL2 x hj with h1 | h1
              · exact Or.inl ⟨i, Or.inl h1⟩
              · exact Or.inr h1
            · rw [if_neg hji] at hj
              exact Or.inl ⟨j, Or.inl hj⟩
          · rw [hsell2 j] at hj
            exact Or.inl ⟨j, Or.inr hj⟩
        refine ⟨⟨hinv1.regIdx, ?_, hinv1.highSell, ?_, hinv1.sortedSell, ?_,
          hinv1.nodupSell, ?_, hinv1.cohSell, ?_, ?_, ?_⟩, ?_, ?_⟩
        · -- highBuy
          intro j hj
          rw [hbuy2 j]
          by_cases hji : j = i
          · replace hj : st1.nextIndex ≤ j := hj
            exact absurd hi (by omega)
          · rw [if_neg hji]
            exact hinv1.highBuy j hj
        · -- sortedBuy
          intro j
          rw [hbuy2 j]
          by_cases hji : j = i
          · rw [if_pos hji, hL2]
            exact List.sorted_insertionSort bidLE _
          · rw [if_neg hji]
            exact hinv1.sortedBuy j
        · -- nodupBuy
          intro j
          rw [hbuy2 j]
          by_cases hji : j = i
          · rw [if_pos hji]
            have hnotin : o.id ∉ (st1.buyOrders i).map Order.id := by
              intro hmem
              obtain ⟨x, hx, hxid⟩ := List.mem_map.mp hmem
              exact hfreshid x ⟨i, Or.inl hx⟩ hxid
            have hperm : (L2.map Order.id).Perm
                ((st1.buyOrders i ++ [o]).map Order.id) :=
              (List.perm_insertionSort bidLE _).map Order.id
            refine hperm.nodup_iff.mpr ?_
            rw [List.map_append]
            refine List.Nodup.append (hinv1.nodupBuy i) (List.nodup_singleton o.id) ?_
            intro a ha hb
            rw [List.map_singleton, List.mem_singleton] at hb
            subst hb
            exact hnotin ha
          · rw [if_neg hji]
            exact hinv1.nodupBuy j
        · -- cohBuy
          intro j x hx
          rw [hbuy2 j] at hx
          by_cases hji : j = i
          · subst hji
            rw [if_pos rfl] at hx
            rcases hmemL2 x hx with h1 | h1
            · exact hinv1.cohBuy j x h1
            · subst h1
              exact ⟨ht, hlook1⟩
          · rw [if_neg hji] at hx
            exact hinv1.cohBuy j x hx
        · -- uniq
          intro x1 x2 h1 h2 hid12
          rcases hcases x1 h1 with hx1 | hx1
          · rcases hcases x2 h2 with hx2 | hx2
            · exact hinv1.uniq x1 x2 hx1 hx2 hid12
            · subst hx2
              exact absurd hid12 (hfreshid x1 hx1)
          · subst hx1
            rcases hcases x2 h2 with hx2 | hx2
            · exact absurd hid12.symm (hfreshid x2 hx2)
            · exact hx2.symm
        · -- fresh
          intro x hx
          rcases hcases x hx with h1 | h1
          · obtain ⟨t, c, hxid, hc⟩ := hinv1.fresh x h1
            exact ⟨t, c, hxid, Nat.lt_succ_of_lt hc⟩
          · subst h1
            exact ⟨now, ctr, hid, Nat.lt_succ_self ctr⟩
        · -- ordOk
          intro x hx
          rcases hcases x hx with h1 | h1
          · exact hinv1.ordOk x h1
          · subst h1
            exact hok
        · -- characterisation (back to the original storage)
          intro x hx
          rcases hcases x hx with h1 | h1
          · exact Or.inl (hIn1 x h1)
          · exact Or.inr h1
        · -- the new order is in the book
          refine ⟨i, Or.inl ?_⟩
          rw [hbuy2 i, if_pos rfl, hL2, List.mem_insertionSort]
          simp
      case sell =>
        rw [ht] at hadd
        simp only [Except.ok.injEq] at hadd
        subst hadd
        set L2 := List.insertionSort askLE (st1.sellOrders i ++ [o]) with hL2
        have hmemL2 : ∀ x, x ∈ L2 → x ∈ st1.sellOrders i ∨ x = o := by
          intro x hx
          rw [hL2, List.mem_insertionSort] at hx
          rcases List.mem_append.mp hx with h1 | h1
          · exact Or.inl h1
          · exact Or.inr (List.mem_singleton.mp h1)
        have hsell2 : ∀ j, (st1.setSellList i L2).sellOrders j =
            if j = i then L2 else st1.sellOrders j := fun j => rfl
        have hbuy2 : ∀ j, (st1.setSellList i L2).buyOrders j = st1.buyOrders j :=
          fun j => rfl
        have hcases : ∀ x, InBooks (st1.setSellList i L2) x → InBooks st1 x ∨ x = o := by
          intro x hx
          obtain ⟨j, hj | hj⟩ := hx
          · rw [hbuy2 j] at hj
            exact Or.inl ⟨j, Or.inl hj⟩
          · rw [hsell2 j] at hj
            by_cases hji : j = i
            · rw [if_pos hji] at hj
              rcases hmemL2 x hj with h1 | h1
              · exact Or.inl ⟨i, Or.inr h1⟩
              · exact Or.inr h1
            · rw [if_neg hji] at hj
              exact Or.inl ⟨j, Or.inr hj⟩
        refine ⟨⟨hinv1.regIdx, hinv1.highBuy, ?_, hinv1.sortedBuy, ?_, hinv1.nodupBuy,
          ?_, hinv1.cohBuy, ?_, ?_, ?_, ?_⟩, ?_, ?_⟩
        · -- highSell
          intro j hj
          rw [hsell2 j]
          by_cases hji : j = i
          · replace hj : st1.nextIndex ≤ j := hj
            exact absurd hi (by omega)
          · rw [if_neg hji]
            exact hinv1.highSell j hj
        · -- sortedSell
          intro j
          rw [hsell2 j]
          by_cases hji : j = i
          · rw [if_pos hji, hL2]
            exact List.sorted_insertionSort askLE _
          · rw [if_neg hji]
            exact hinv1.sortedSell j
        · -- nodupSell
          intro j
          rw [hsell2 j]
          by_cases hji : j = i
          · rw [if_pos hji]
            have hnotin : o.id ∉ (st1.sellOrders i).map Order.id := by
              intro hmem
              obtain ⟨x, hx, hxid⟩ := List.mem_map.mp hmem
              exact hfreshid x ⟨i, Or.inr hx⟩ hxid
            have hperm : (L2.map Order.id).Perm
                ((st1.sellOrders i ++ [o]).map Order.id) :=
              (List.perm_insertionSort askLE _).map Order.id
            refine hperm.nodup_iff.mpr ?_
            rw [List.map_append]
            refine List.Nodup.append (hinv1.nodupSell i) (List.nodup_singleton o.id) ?_
            intro a ha hb
            rw [List.map_singleton, List.mem_singleton] at hb
            subst hb
            exact hnotin ha
          · rw [if_neg hji]
            exact hinv1.nodupSell j
        · -- cohSell
          intro j x hx
          rw [hsell2 j] at hx
          by_cases hji : j = i
          · subst hji
            rw [if_pos rfl] at hx
            rcases hmemL2 x hx with h1 | h1
            · exact hinv1.cohSell j x h1
            · subst h1
              exact ⟨ht, hlook1⟩
          · rw [if_neg hji] at hx
            exact hinv1.cohSell j x hx
        · -- uniq
          intro x1 x2 h1 h2 hid12
          rcases hcases x1 h1 with hx1 | hx1
          · rcases hcases x2 h2 with hx2 | hx2
            · exact hinv1.uniq x1 x2 hx1 hx2 hid12
            · subst hx2
              exact absurd hid12 (hfreshid x1 hx1)
          · subst hx1
            rcases hcases x2 h2 with hx2 | hx2
            · exact absurd hid12.symm (hfreshid x2 hx2)
            · exact hx2.symm
        · -- fresh
          intro x hx
          rcases hcases x hx with h1 | h1
          · obtain ⟨t, c, hxid, hc⟩ := hinv1.fresh x h1
            exact ⟨t, c, hxid, Nat.lt_succ_of_lt hc⟩
          · subst h1
            exact ⟨now, ctr, hid, Nat.lt_succ_self ctr⟩
        · -- ordOk
          intro x hx
          rcases hcases x hx with h1 | h1
          · exact hinv1.ordOk x h1
          · subst h1
            exact hok
        · -- characterisation (back to the original storage)
          intro x hx
          rcases hcases x hx with h1 | h1
          · exact Or.inl (hIn1 x h1)
          · exact Or.inr h1
        · -- the new order is in the book
          refine ⟨i, Or.inr ?_⟩
          rw [hsell2 i, if_pos rfl, hL2, List.mem_insertionSort]
          simp

theorem matchLoop_inv (now ctr : Nat) :
    ∀ (l : List Order) (order : Order) (σ : EngineState) (acc : List Transaction),
      StorageInv σ.storage ctr →
      (∀ x ∈ l, InBooks σ.storage x) →
      ((l.map Order.id).Nodup) →
      order.id ∉ l.map Order.id →
      OrderOkProp order →
      0 < order.remainingQuantity →
      (TradingEngine.matchLoop now l order σ acc).err = false ∧
      StorageInv (TradingEngine.matchLoop now l order σ acc).state.storage ctr ∧
      Tracks σ.storage (TradingEngine.matchLoop now l order σ acc).state.storage ∧
      (∀ x, InBooks (TradingEngine.matchLoop now l order σ acc).state.storage x →
        InBooks σ.storage x ∨ x.id ∈ l.map Order.id) ∧
      orderCore (TradingEngine.matchLoop now l order σ acc).order = orderCore order ∧
      (TradingEngine.matchLoop now l order σ acc).order.remainingQuantity ≤
        order.remainingQuantity ∧
      OrderOkProp (TradingEngine.matchLoop now l order σ acc).order ∧
      ((TradingEngine.matchLoop now l order σ acc).filled = false →
        0 < (TradingEngine.matchLoop now l order σ acc).order.remainingQuantity) ∧
      (TradingEngine.matchLoop now l order σ acc).state.orderCounter = σ.orderCounter := by
  intro l
  induction l with
  | nil =>
    intro order σ acc hinv hmem hnd hne hok hpos
    exact ⟨rfl, hinv, tracks_refl _, fun x hx => Or.inl hx, rfl, le_refl _, hok,
      fun _ => hpos, rfl⟩
  | cons opp rest ih =>
    intro order σ acc hinv hmem hnd hne hok hpos
    rw [List.map_cons, List.nodup_cons] at hnd
    rw [List.map_cons, List.mem_cons] at hne
    push_neg at hne
    by_cases hskip : opp.status = .matched ∨ opp.status = .canceled ∨
      opp.remainingQuantity ≤ 0
    · simp only [TradingEngine.matchLoop, if_pos hskip]
      obtain ⟨e1, e2, e3, e4, e5, e6, e7, e8, e9⟩ :=
        ih order σ acc hinv (fun x hx => hmem x (List.mem_cons_of_mem _ hx))
          hnd.2 hne.2 hok hpos
      refine ⟨e1, e2, e3, ?_, e5, e6, e7, e8, e9⟩
      intro x hx
      rcases e4 x hx with h1 | h1
      · exact Or.inl h1
      · right
        rw [List.map_cons, List.mem_cons]
        exact Or.inr h1
    · by_cases hcross : TradingEngine.priceCrosses order opp = true
      · -- a crossing: the opposite order is decremented and written back
        have hoppmem : InBooks σ.storage opp := hmem opp (List.mem_cons_self _ _)
        have hoppok : OrderOkProp opp := hinv.ordOk opp hoppmem
        have hopppos : 0 < opp.remainingQuantity := by
          have h := hskip
          push_neg at h
          exact h.2.2
        have hQpos : 0 < min order.remainingQuantity opp.remainingQuantity :=
          lt_min hpos hopppos
        obtain ⟨hokOpp2, hcoreOpp2, hremOpp2⟩ :=
          orderOk_decrement opp (min order.remainingQuantity opp.remainingQuantity)
            hoppok hQpos (min_le_right _ _)
        obtain ⟨hokOrd2, hcoreOrd2, hremOrd2⟩ :=
          orderOk_decrement order (min order.remainingQuantity opp.remainingQuantity)
            hok hQpos (min_le_left _ _)
        obtain ⟨hidO2, htpO2, hsymO2, hq1, hq2, hq3⟩ := orderCore_fields _ _ hcoreOpp2
        obtain ⟨hidR2, hr1, hr2, hr3, hr4, hr5⟩ := orderCore_fields _ _ hcoreOrd2
        obtain ⟨iopp, hiopp⟩ :
            ∃ j, lookupTicker σ.storage.tickerToIndex opp.tickerSymbol = some j := by
          obtain ⟨j, hj | hj⟩ := hoppmem
          · exact ⟨j, (hinv.cohBuy j opp hj).2⟩
          · exact ⟨j, (hinv.cohSell j opp hj).2⟩
        have hglob2 : ∀ e, InBooks σ.storage e →
            e.id = (TradingEngine.bumpStatus { opp with remainingQuantity := opp.remainingQuantity - min order.remainingQuantity opp.remainingQuantity }).id →
            orderCore e = orderCore (TradingEngine.bumpStatus { opp with remainingQuantity := opp.remainingQuantity - min order.remainingQuantity opp.remainingQuantity }) ∧
            (TradingEngine.bumpStatus { opp with remainingQuantity := opp.remainingQuantity - min order.remainingQuantity opp.remainingQuantity }).remainingQuantity ≤ e.remainingQuantity := by
          intro e he heid
          have heq : e = opp := hinv.uniq e opp he hoppmem (heid.trans hidO2)
          subst heq
          exact ⟨hcoreOpp2.symm, hremOpp2⟩
        simp only [TradingEngine.matchLoop, if_neg hskip, hcross, if_true]
        rw [updatePortfolio_storage]
        cases hupd :
            OrderStorage.updateOrder
              { σ with transactionCounter := σ.transactionCounter + 1 }.storage
              (TradingEngine.bumpStatus { opp with remainingQuantity := opp.remainingQuantity - min order.remainingQuantity opp.remainingQuantity }) with
        | error e0 =>
          exact absurd hupd (updateOrder_ne_error_of_found
            { σ with transactionCounter := σ.transactionCounter + 1 }.storage
            (TradingEngine.bumpStatus { opp with remainingQuantity := opp.remainingQuantity - min order.remainingQuantity opp.remainingQuantity })
            iopp (by rw [bumpStatus_tickerSymbol]; exact hiopp) e0)
        | ok st =>
          have hupd' : OrderStorage.updateOrder σ.storage
              (TradingEngine.bumpStatus { opp with remainingQuantity := opp.remainingQuantity - min order.remainingQuantity opp.remainingQuantity }) = .ok st := hupd
          obtain ⟨hinvSt, htrSt, hchSt, hkeepSt⟩ :=
            storageInv_updateOrder σ.storage
              (TradingEngine.bumpStatus { opp with remainingQuantity := opp.remainingQuantity - min order.remainingQuantity opp.remainingQuantity })
              iopp ctr st hinv
              (by rw [bumpStatus_tickerSymbol]; exact hiopp) hokOpp2 hglob2 hupd'
          simp only
          split
          · -- the incoming order was filled by this crossing: the loop stops here
            refine ⟨rfl, hinvSt, htrSt, ?_, hcoreOrd2, hremOrd2, hokOrd2, ?_,
              (updatePortfolio_counters { σ with transactionCounter := σ.transactionCounter + 1 } (TradingEngine.crossTransaction now order opp σ.transactionCounter)).1⟩
            · intro x hx
              rcases hchSt x hx with h1 | h1
              · exact Or.inl h1
              · right
                rw [List.map_cons, List.mem_cons]
                left
                rw [h1]
                exact hidO2
            · intro h
              exact Bool.noConfusion h
          · -- not yet filled: the loop continues on the rest of the snapshot
            rename_i hfil
            have hfil2 : ({ order with remainingQuantity := order.remainingQuantity - min order.remainingQuantity opp.remainingQuantity } : Order).remainingQuantity ≠ (0 : Rat) :=
              fun h => hfil (decide_eq_true h)
            have hmem3 : ∀ x ∈ rest, InBooks st x := by
              intro x hx
              refine hkeepSt x (hmem x (List.mem_cons_of_mem _ hx)) ?_
              intro heq
              rw [hidO2] at heq
              exact hnd.1 (heq ▸ List.mem_map_of_mem Order.id hx)
            have hne3 : (TradingEngine.bumpStatus { order with remainingQuantity := order.remainingQuantity - min order.remainingQuantity opp.remainingQuantity }).id ∉
                rest.map Order.id := by
              rw [hidR2]
              exact hne.2
            have hrq : (TradingEngine.bumpStatus { order with remainingQuantity := order.remainingQuantity - min order.remainingQuantity opp.remainingQuantity }).remainingQuantity =
                order.remainingQuantity - min order.remainingQuantity opp.remainingQuantity :=
              bumpStatus_remainingQuantity _
            have hpos3 : 0 < (TradingEngine.bumpStatus { order with remainingQuantity := order.remainingQuantity - min order.remainingQuantity opp.remainingQuantity }).remainingQuantity := by
              rw [hrq]
              exact lt_of_le_of_ne (sub_nonneg.mpr (min_le_left _ _)) (Ne.symm hfil2)
            obtain ⟨e1, e2, e3, e4, e5, e6, e7, e8, e9⟩ :=
              ih (TradingEngine.bumpStatus { order with remainingQuantity := order.remainingQuantity - min order.remainingQuantity opp.remainingQuantity })
                { TradingEngine.updatePortfolio { σ with transactionCounter := σ.transactionCounter + 1 } (TradingEngine.crossTransaction now order opp σ.transactionCounter) with storage := st, transactions := (TradingEngine.updatePortfolio { σ with transactionCounter := σ.transactionCounter + 1 } (TradingEngine.crossTransaction now order opp σ.transactionCounter)).transactions ++ [TradingEngine.crossTransaction now order opp σ.transactionCounter] }
                (acc ++ [TradingEngine.crossTransaction now order opp σ.transactionCounter])
                hinvSt hmem3 hnd.2 hne3 hokOrd2 hpos3
            have h9 : ({ TradingEngine.updatePortfolio { σ with transactionCounter := σ.transactionCounter + 1 } (TradingEngine.crossTransaction now order opp σ.transactionCounter) with storage := st, transactions := (TradingEngine.updatePortfolio { σ with transactionCounter := σ.transactionCounter + 1 } (TradingEngine.crossTransaction now order opp σ.transactionCounter)).transactions ++ [TradingEngine.crossTransaction now order opp σ.transactionCounter] } : EngineState).orderCounter = σ.orderCounter :=
              (updatePortfolio_counters { σ with transactionCounter := σ.transactionCounter + 1 } (TradingEngine.crossTransaction now order opp σ.transactionCounter)).1
            refine ⟨e1, e2, tracks_trans htrSt e3, ?_, e5.trans hcoreOrd2,
              le_trans e6 hremOrd2, e7, e8, e9.trans h9⟩
            intro x hx
            rcases e4 x hx with h1 | h1
            · rcases hchSt x h1 with h2 | h2
              · exact Or.inl h2
              · right
                rw [List.map_cons, List.mem_cons]
                left
                rw [h2]
                exact hidO2
            · right
              rw [List.map_cons, List.mem_cons]
              exact Or.inr h1
      · -- no crossing: this opposite order is passed over
        have hcf : TradingEngine.priceCrosses order opp = false := by
          revert hcross
          cases TradingEngine.priceCrosses order opp <;> simp
        simp only [TradingEngine.matchLoop, if_neg hskip, hcf, Bool.false_eq_true, if_false]
        obtain ⟨e1, e2, e3, e4, e5, e6, e7, e8, e9⟩ :=
          ih order σ acc hinv (fun x hx => hmem x (List.mem_cons_of_mem _ hx))
            hnd.2 hne.2 hok hpos
        refine ⟨e1, e2, e3, ?_, e5, e6, e7, e8, e9⟩
        intro x hx
        rcases e4 x hx with h1 | h1
        · exact Or.inl h1
        · right
          rw [List.map_cons, List.mem_cons]
          exact Or.inr h1

theorem matchOrder_inv (s : EngineState) (order : Order) (now ctr : Nat)
    (hinv : StorageInv s.storage ctr)
    (hmem : InBooks s.storage order)
    (hok : OrderOkProp order)
    (hpos : 0 < order.remainingQuantity) :
    (TradingEngine.matchOrder s order now).err = false ∧
    StorageInv (TradingEngine.matchOrder s order now).state.storage ctr ∧
    Tracks s.storage (TradingEngine.matchOrder s order now).state.storage ∧
    orderCore (TradingEngine.matchOrder s order now).order = orderCore order ∧
    (∀ e, InBooks (TradingEngine.matchOrder s order now).state.storage e →
      e.id = order.id → orderCore e = orderCore order) ∧
    (TradingEngine.matchOrder s order now).state.orderCounter = s.orderCounter := by
  obtain ⟨iord, hiomem⟩ := hmem
  have hmem' : InBooks s.storage order := ⟨iord, hiomem⟩
  cases htb : order.type
  case buy =>
    have hlookord : lookupTicker s.storage.tickerToIndex order.tickerSymbol = some iord := by
      rcases hiomem with h | h
      · exact (hinv.cohBuy iord order h).2
      · have hc := (hinv.cohSell iord order h).1
        rw [htb] at hc
        exact absurd hc (by decide)
    simp only [TradingEngine.matchOrder]
    rw [if_pos htb, getSellOrders_of_found s.storage order.tickerSymbol iord hlookord]
    by_cases hemp : s.storage.sellOrders iord = []
    · rw [if_pos hemp]
      refine ⟨rfl, hinv, tracks_refl _, rfl, ?_, rfl⟩
      intro e he heid
      have he2 : e = order := hinv.uniq e order he hmem' heid
      rw [he2]
    · rw [if_neg hemp]
      have hmemL : ∀ x ∈ s.storage.sellOrders iord, InBooks s.storage x :=
        fun x hx => ⟨iord, Or.inr hx⟩
      have hndL : ((s.storage.sellOrders iord).map Order.id).Nodup := hinv.nodupSell iord
      have hneL : order.id ∉ (s.storage.sellOrders iord).map Order.id := by
        intro hin
        obtain ⟨x, hx, hxid⟩ := List.mem_map.mp hin
        have hxo : x = order := hinv.uniq x order ⟨iord, Or.inr hx⟩ hmem' hxid
        subst hxo
        have hc := (hinv.cohSell iord x hx).1
        rw [htb] at hc
        exact absurd hc (by decide)
      obtain ⟨e1, e2, e3, e4, e5, e6, e7, e8, e9⟩ :=
        matchLoop_inv now ctr (s.storage.sellOrders iord) order
          { s with storage := (s.storage.sellOrders iord, s.storage).2 } []
          hinv hmemL hndL hneL hok hpos
      set r0 := TradingEngine.matchLoop now (s.storage.sellOrders iord) order
        { s with storage := (s.storage.sellOrders iord, s.storage).2 } [] with hr0
      obtain ⟨hidR, htpR, hsymR, hqR, hpR, htsR⟩ := orderCore_fields _ _ e5
      have hidkey : ∀ e, InBooks r0.state.storage e → e.id = order.id → e = order := by
        intro e he heid
        rcases e4 e he with h1 | h1
        · exact hinv.uniq e order h1 hmem' heid
        · exact absurd (heid ▸ h1) hneL
      have hglobR : ∀ e, InBooks r0.state.storage e → e.id = r0.order.id →
          orderCore e = orderCore r0.order ∧
          r0.order.remainingQuantity ≤ e.remainingQuantity := by
        intro e he heid
        have he2 : e = order := hidkey e he (by rw [heid, hidR])
        subst he2
        exact ⟨e5.symm, e6⟩
      rw [if_neg (show ¬(r0.err = true) from fun h => Bool.noConfusion (e1 ▸ h))]
      by_cases hfill : r0.filled = false ∧ 0 < r0.order.remainingQuantity
      · rw [if_pos hfill]
        obtain ⟨d, hd⟩ := registry_matchLoop now (s.storage.sellOrders iord) order
          { s with storage := (s.storage.sellOrders iord, s.storage).2 } []
        rw [← hr0] at hd
        have hlookr : lookupTicker r0.state.storage.tickerToIndex
            r0.order.tickerSymbol = some iord := by
          rw [hsymR, hd]
          exact lookupTicker_append_of_some _ _ _ _ hlookord
        cases hupd : r0.state.storage.updateOrder r0.order with
        | error e0 => exact absurd hupd (updateOrder_ne_error_of_found _ _ iord hlookr e0)
        | ok st2 =>
          obtain ⟨hinv2, htr2, hch2, hkeep2⟩ :=
            storageInv_updateOrder r0.state.storage r0.order iord ctr st2 e2 hlookr
              e7 hglobR hupd
          refine ⟨e1, hinv2, tracks_trans e3 htr2, e5, ?_, e9⟩
          intro e he heid
          rcases hch2 e he with h1 | h1
          · rw [hidkey e h1 heid]
          · rw [h1]
            exact e5
      · rw [if_neg hfill]
        obtain ⟨hinv2, htr2, hch2, hkeep2⟩ :=
          storageInv_writeThrough r0.state.storage r0.order ctr e2 e7 hglobR
        refine ⟨e1, hinv2, tracks_trans e3 htr2, e5, ?_, e9⟩
        intro e he heid
        rcases hch2 e he with h1 | h1
        · rw [hidkey e h1 heid]
        · rw [h1]
          exact e5
  case sell =>
    have hlookord : lookupTicker s.storage.tickerToIndex order.tickerSymbol = some iord := by
      rcases hiomem with h | h
      · have hc := (hinv.cohBuy iord order h).1
        rw [htb] at hc
        exact absurd hc (by decide)
      · exact (hinv.cohSell iord order h).2
    have htb' : ¬(order.type = OrderType.buy) := by
      rw [htb]
      decide
    simp only [TradingEngine.matchOrder]
    rw [if_neg htb', getBuyOrders_of_found s.storage order.tickerSymbol iord hlookord]
    by_cases hemp : s.storage.buyOrders iord = []
    · rw [if_pos hemp]
      refine ⟨rfl, hinv, tracks_refl _, rfl, ?_, rfl⟩
      intro e he heid
      have he2 : e = order := hinv.uniq e order he hmem' heid
      rw [he2]
    · rw [if_neg hemp]
      have hmemL : ∀ x ∈ s.storage.buyOrders iord, InBooks s.storage x :=
        fun x hx => ⟨iord, Or.inl hx⟩
      have hndL : ((s.storage.buyOrders iord).map Order.id).Nodup := hinv.nodupBuy iord
      have hneL : order.id ∉ (s.storage.buyOrders iord).map Order.id := by
        intro hin
        obtain ⟨x, hx, hxid⟩ := List.mem_map.mp hin
        have hxo : x = order := hinv.uniq x order ⟨iord, Or.inl hx⟩ hmem' hxid
        subst hxo
        have hc := (hinv.cohBuy iord x hx).1
        rw [htb] at hc
        exact absurd hc (by decide)
      obtain ⟨e1, e2, e3, e4, e5, e6, e7, e8, e9⟩ :=
        matchLoop_inv now ctr (s.storage.buyOrders iord) order
          { s with storage := (s.storage.buyOrders iord, s.storage).2 } []
          hinv hmemL hndL hneL hok hpos
      set r0 := TradingEngine.matchLoop now (s.storage.buyOrders iord) order
        { s with storage := (s.storage.buyOrders iord, s.storage).2 } [] with hr0
      obtain ⟨hidR, htpR, hsymR, hqR, hpR, htsR⟩ := orderCore_fields _ _ e5
      have hidkey : ∀ e, InBooks r0.state.storage e → e.id = order.id → e = order := by
        intro e he heid
        rcases e4 e he with h1 | h1
        · exact hinv.uniq e order h1 hmem' heid
        · exact absurd (heid ▸ h1) hneL
      have hglobR : ∀ e, InBooks r0.state.storage e → e.id = r0.order.id →
          orderCore e = orderCore r0.order ∧
          r0.order.remainingQuantity ≤ e.remainingQuantity := by
        intro e he heid
        have he2 : e = order := hidkey e he (by rw [heid, hidR])
        subst he2
        exact ⟨e5.symm, e6⟩
      rw [if_neg (show ¬(r0.err = true) from fun h => Bool.noConfusion (e1 ▸ h))]
      by_cases hfill : r0.filled = false ∧ 0 < r0.order.remainingQuantity
      · rw [if_pos hfill]
        obtain ⟨d, hd⟩ := registry_matchLoop now (s.storage.buyOrders iord) order
          { s with storage := (s.storage.buyOrders iord, s.storage).2 } []
        rw [← hr0] at hd
        have hlookr : lookupTicker r0.state.storage.tickerToIndex
            r0.order.tickerSymbol = some iord := by
          rw [hsymR, hd]
          exact lookupTicker_append_of_some _ _ _ _ hlookord
        cases hupd : r0.state.storage.updateOrder r0.order with
        | error e0 => exact absurd hupd (updateOrder_ne_error_of_found _ _ iord hlookr e0)
        | ok st2 =>
          obtain ⟨hinv2, htr2, hch2, hkeep2⟩ :=
            storageInv_updateOrder r0.state.storage r0.order iord ctr st2 e2 hlookr
              e7 hglobR hupd
          refine ⟨e1, hinv2, tracks_trans e3 htr2, e5, ?_, e9⟩
          intro e he heid
          rcases hch2 e he with h1 | h1
          · rw [hidkey e h1 heid]
          · rw [h1]
            exact e5
      · rw [if_neg hfill]
        obtain ⟨hinv2, htr2, hch2, hkeep2⟩ :=
          storageInv_writeThrough r0.state.storage r0.order ctr e2 e7 hglobR
        refine ⟨e1, hinv2, tracks_trans e3 htr2, e5, ?_, e9⟩
        intro e he heid
        rcases hch2 e he with h1 | h1
        · rw [hidkey e h1 heid]
        · rw [h1]
          exact e5

theorem engineInv_of (s' : EngineState) (c : Nat) (h2 : s'.orderCounter = c)
    (h1 : StorageInv s'.storage c) : EngineInv s' := by
  unfold EngineInv
  rw [h2]
  exact h1

theorem remMono_self (s : EngineState) (h : EngineInv s) : RemMono s s := by
  intro o2 h2 o1 h1 hid
  have he := h.uniq o1 o2 h1 h2 hid
  rw [he]

theorem remMono_step (s s2 : EngineState) (st : OrderStorage) (o : Order) (t : Nat)
    (h : EngineInv s)
    (hoid : o.id = .ord t s.orderCounter)
    (hch : ∀ x, InBooks st x → InBooks s.storage x ∨ x = o)
    (htr : Tracks st s2.storage) :
    RemMono s s2 := by
  intro o2 h2 o1 h1 hid12
  obtain ⟨om, hom, homid, homrem⟩ := htr o2 h2
  rcases hch om hom with hcase | hcase
  · have he : om = o1 := h.uniq om o1 hcase h1 (homid.trans hid12.symm)
    rw [← he]
    exact homrem
  · obtain ⟨tt, cc, ho1id, hclt⟩ := h.fresh o1 h1
    have hcontra : OrderRef.ord tt cc = OrderRef.ord t s.orderCounter := by
      rw [← ho1id, hid12, ← homid, hcase, hoid]
    simp only [OrderRef.ord.injEq] at hcontra
    omega

theorem addOrder_inv (s : EngineState) (type : OrderType) (sym : String) (q p : Rat)
    (now : Nat) (h : EngineInv s) :
    EngineInv (TradingEngine.addOrder s type sym q p now).2 ∧
    RemMono s (TradingEngine.addOrder s type sym q p now).2 := by
  by_cases h1 : q ≤ 0
  · simp only [TradingEngine.addOrder, if_pos h1]
    exact ⟨h, remMono_self s h⟩
  by_cases h2 : p ≤ 0
  · simp only [TradingEngine.addOrder, if_neg h1, if_pos h2]
    exact ⟨h, remMono_self s h⟩
  by_cases h3 : TradingEngine.blankSymbol sym = true
  · simp only [TradingEngine.addOrder, if_neg h1, if_neg h2, if_pos h3]
    exact ⟨h, remMono_self s h⟩
  by_cases h4 : type = OrderType.sell ∧ TradingEngine.insufficientFor s sym q = true
  · simp only [TradingEngine.addOrder, if_neg h1, if_neg h2, if_neg h3, if_pos h4]
    exact ⟨h, remMono_self s h⟩
  simp only [TradingEngine.addOrder, if_neg h1, if_neg h2, if_neg h3, if_neg h4]
  have hq : 0 < q := not_le.mp h1
  have hokord : OrderOkProp (TradingEngine.newOrderOf s type sym q p now) :=
    ⟨le_of_lt hq, le_refl q, ⟨fun hc => OrderStatus.noConfusion hc,
      fun hc => absurd hc (ne_of_gt hq)⟩, fun hc => OrderStatus.noConfusion hc⟩
  cases hadd : OrderStorage.addOrder s.storage
      (TradingEngine.newOrderOf s type sym q p now) with
  | error u =>
    constructor
    · exact engineInv_of _ (s.orderCounter + 1) rfl (storageInv_mono h (Nat.le_succ _))
    · exact remMono_self s h
  | ok st =>
    simp only
    obtain ⟨hinvSt, hchSt, hmemSt⟩ :=
      storageInv_storage_addOrder s.storage (TradingEngine.newOrderOf s type sym q p now)
        s.orderCounter now st h rfl hokord hadd
    obtain ⟨m1, m2, m3, m4, m5, m6⟩ :=
      matchOrder_inv (TradingEngine.midState s st)
        (TradingEngine.newOrderOf s type sym q p now) now (s.orderCounter + 1)
        hinvSt hmemSt hokord hq
    obtain ⟨i2, hlook2, hside1, hside2⟩ := storage_addOrder_ok _ _ _ hadd
    obtain ⟨d2, hd2⟩ := registry_matchOrder (TradingEngine.midState s st)
      (TradingEngine.newOrderOf s type sym q p now) now
    set r := TradingEngine.matchOrder (TradingEngine.midState s st)
      (TradingEngine.newOrderOf s type sym q p now) now with hr
    obtain ⟨hid4, htp4, hsym4, hq4, hp4, hts4⟩ := orderCore_fields _ _ m4
    rw [if_neg (show ¬(r.err = true) from fun hcc => Bool.noConfusion (m1 ▸ hcc))]
    have hcnt : r.state.orderCounter = s.orderCounter + 1 := m6
    by_cases hfb1 : type = OrderType.buy ∧ r.txs = []
    · rw [if_pos hfb1]
      rw [updatePortfolio_storage]
      have hlookr2 : lookupTicker r.state.storage.tickerToIndex
          ({ r.order with status := OrderStatus.matched, remainingQuantity := 0 } : Order).tickerSymbol = some i2 := by
        show lookupTicker r.state.storage.tickerToIndex r.order.tickerSymbol = some i2
        rw [hsym4, hd2]
        exact lookupTicker_append_of_some _ _ _ _ hlook2
      split
      · rename_i e0 hupd2
        exact absurd hupd2 (updateOrder_ne_error_of_found _ _ i2 hlookr2 e0)
      · rename_i st2 hupd2
        have hok2 : OrderOkProp ({ r.order with status := OrderStatus.matched, remainingQuantity := 0 } : Order) := by
          refine ⟨le_refl 0, ?_, ⟨fun _ => rfl, fun _ => rfl⟩,
            fun hc => OrderStatus.noConfusion hc⟩
          show (0 : Rat) ≤ r.order.quantity
          rw [hq4]
          exact le_of_lt hq
        have hglob2 : ∀ e, InBooks r.state.storage e →
            e.id = ({ r.order with status := OrderStatus.matched, remainingQuantity := 0 } : Order).id →
            orderCore e = orderCore ({ r.order with status := OrderStatus.matched, remainingQuantity := 0 } : Order) ∧
            ({ r.order with status := OrderStatus.matched, remainingQuantity := 0 } : Order).remainingQuantity ≤
              e.remainingQuantity := by
          intro e he heid
          refine ⟨?_, (m2.ordOk e he).1⟩
          have hcore := m5 e he (heid.trans hid4)
          exact hcore.trans m4.symm
        have hupd2' : r.state.storage.updateOrder ({ r.order with status := OrderStatus.matched, remainingQuantity := 0 } : Order) = .ok st2 := hupd2
        obtain ⟨hinv2, htr2, hch2, hkeep2⟩ :=
          storageInv_updateOrder r.state.storage _ i2 (s.orderCounter + 1) st2 m2
            hlookr2 hok2 hglob2 hupd2'
        constructor
        · refine engineInv_of _ (s.orderCounter + 1) ?_ hinv2
          exact ((updatePortfolio_counters { r.state with transactionCounter := r.state.transactionCounter + 1 } { id := (now, r.state.transactionCounter), buyOrderId := r.order.id, sellOrderId := OrderRef.autoFilled, tickerSymbol := r.order.tickerSymbol, quantity := r.order.quantity, price := r.order.price, timestamp := now }).1).trans hcnt
        · exact remMono_step s _ st (TradingEngine.newOrderOf s type sym q p now) now h
            rfl hchSt (tracks_trans m3 htr2)
    · rw [if_neg hfb1]
      by_cases hfb2 : type = OrderType.sell ∧ r.txs = []
      · rw [if_pos hfb2]
        rw [updatePortfolio_storage]
        have hlookr2 : lookupTicker r.state.storage.tickerToIndex
            ({ r.order with status := OrderStatus.matched, remainingQuantity := 0 } : Order).tickerSymbol = some i2 := by
          show lookupTicker r.state.storage.tickerToIndex r.order.tickerSymbol = some i2
          rw [hsym4, hd2]
          exact lookupTicker_append_of_some _ _ _ _ hlook2
        split
        · rename_i e0 hupd2
          exact absurd hupd2 (updateOrder_ne_error_of_found _ _ i2 hlookr2 e0)
        · rename_i st2 hupd2
          have hok2 : OrderOkProp ({ r.order with status := OrderStatus.matched, remainingQuantity := 0 } : Order) := by
            refine ⟨le_refl 0, ?_, ⟨fun _ => rfl, fun _ => rfl⟩,
              fun hc => OrderStatus.noConfusion hc⟩
            show (0 : Rat) ≤ r.order.quantity
            rw [hq4]
            exact le_of_lt hq
          have hglob2 : ∀ e, InBooks r.state.storage e →
              e.id = ({ r.order with status := OrderStatus.matched, remainingQuantity := 0 } : Order).id →
              orderCore e = orderCore ({ r.order with status := OrderStatus.matched, remainingQuantity := 0 } : Order) ∧
              ({ r.order with status := OrderStatus.matched, remainingQuantity := 0 } : Order).remainingQuantity ≤
                e.remainingQuantity := by
            intro e he heid
            refine ⟨?_, (m2.ordOk e he).1⟩
            have hcore := m5 e he (heid.trans hid4)
            exact hcore.trans m4.symm
          have hupd2' : r.state.storage.updateOrder ({ r.order with status := OrderStatus.matched, remainingQuantity := 0 } : Order) = .ok st2 := hupd2
          obtain ⟨hinv2, htr2, hch2, hkeep2⟩ :=
            storageInv_updateOrder r.state.storage _ i2 (s.orderCounter + 1) st2 m2
              hlookr2 hok2 hglob2 hupd2'
          constructor
          · refine engineInv_of _ (s.orderCounter + 1) ?_ hinv2
            exact ((updatePortfolio_counters { r.state with transactionCounter := r.state.transactionCounter + 1 } { id := (now, r.state.transactionCounter), buyOrderId := OrderRef.market, sellOrderId := r.order.id, tickerSymbol := r.order.tickerSymbol, quantity := r.order.quantity, price := r.order.price, timestamp := now }).1).trans hcnt
          · exact remMono_step s _ st (TradingEngine.newOrderOf s type sym q p now) now h
              rfl hchSt (tracks_trans m3 htr2)
      · rw [if_neg hfb2]
        exact ⟨engineInv_of _ (s.orderCounter + 1) hcnt m2,
          remMono_step s r.state st (TradingEngine.newOrderOf s type sym q p now) now h
            rfl hchSt m3⟩

theorem applyOp_inv (s : EngineState) (op : EngineOp) (h : EngineInv s) :
    EngineInv (applyOp s op) ∧ RemMono s (applyOp s op) := by
  cases op with
  | submit type sym q p now =>
    simp only [applyOp]
    exact addOrder_inv s type sym q p now h
  | queryBuy sym =>
    simp only [applyOp]
    constructor
    · refine engineInv_of _ s.orderCounter rfl ?_
      show StorageInv (OrderStorage.getBuyOrders s.storage sym).2 s.orderCounter
      rw [getBuyOrders_snd]
      exact storageInv_getTickerIndex s.storage sym s.orderCounter h
    · intro o2 h2 o1 h1 hid12
      have h2' : InBooks s.storage o2 := by
        replace h2 : InBooks (OrderStorage.getBuyOrders s.storage sym).2 o2 := h2
        rw [getBuyOrders_snd] at h2
        obtain ⟨j, hj | hj⟩ := h2
        · exact ⟨j, Or.inl ((books_getTickerIndex s.storage sym).1 ▸ hj)⟩
        · exact ⟨j, Or.inr ((books_getTickerIndex s.storage sym).2 ▸ hj)⟩
      have he := h.uniq o1 o2 h1 h2' hid12
      rw [he]
  | querySell sym =>
    simp only [applyOp]
    constructor
    · refine engineInv_of _ s.orderCounter rfl ?_
      show StorageInv (OrderStorage.getSellOrders s.storage sym).2 s.orderCounter
      rw [getSellOrders_snd]
      exact storageInv_getTickerIndex s.storage sym s.orderCounter h
    · intro o2 h2 o1 h1 hid12
      have h2' : InBooks s.storage o2 := by
        replace h2 : InBooks (OrderStorage.getSellOrders s.storage sym).2 o2 := h2
        rw [getSellOrders_snd] at h2
        obtain ⟨j, hj | hj⟩ := h2
        · exact ⟨j, Or.inl ((books_getTickerIndex s.storage sym).1 ▸ hj)⟩
        · exact ⟨j, Or.inr ((books_getTickerIndex s.storage sym).2 ▸ hj)⟩
      have he := h.uniq o1 o2 h1 h2' hid12
      rw [he]

theorem runOps_inv (ops : List EngineOp) : ∀ s, EngineInv s → EngineInv (runOps s ops) := by
  induction ops with
  | nil => intro s h; exact h
  | cons op ops ih =>
    intro s h
    exact ih (applyOp s op) (applyOp_inv s op h).1

theorem reachable_inv (s : EngineState) (h : Reachable s) : EngineInv s := by
  obtain ⟨ops, hs⟩ := h
  subst hs
  exact runOps_inv ops initialState storageInv_initial

/-- C6: in every state reachable through the public interface, every
per-symbol bid list is sorted by price descending with ties broken by
timestamp ascending, and every per-symbol ask list is sorted by price
ascending with ties broken by timestamp ascending (and so the books are in
this order after every mutation `addOrder`/`updateOrder` performs, each
public operation leaving the books in this state). -/
theorem c6_book_sortedness (s : EngineState) (h : Reachable s) :
    ∀ i, (s.storage.buyOrders i).Pairwise
        (fun a b => b.price < a.price ∨ (a.price = b.price ∧ a.timestamp ≤ b.timestamp)) ∧
      (s.storage.sellOrders i).Pairwise
        (fun a b => a.price < b.price ∨ (a.price = b.price ∧ a.timestamp ≤ b.timestamp)) := by
  have hinv := reachable_inv s h
  intro i
  constructor
  · refine (hinv.sortedBuy i).imp ?_
    intro a b hab
    unfold bidLE at hab
    by_cases hp : a.price = b.price
    · rw [if_pos hp] at hab
      exact Or.inr ⟨hp, hab⟩
    · rw [if_neg hp] at hab
      exact Or.inl hab
  · refine (hinv.sortedSell i).imp ?_
    intro a b hab
    unfold askLE at hab
    by_cases hp : a.price = b.price
    · rw [if_pos hp] at hab
      exact Or.inr ⟨hp, hab⟩
    · rw [if_neg hp] at hab
      exact Or.inl hab

/-- C6 witness: the sortedness holds at a concrete reachable state (after a
buy submission that auto-fills). -/
theorem c6_book_sortedness_witness :
    Reachable (runOps initialState
      [EngineOp.submit OrderType.buy (String.mk ['A']) 10 50 0]) ∧
    ∀ i, ((runOps initialState
        [EngineOp.submit OrderType.buy (String.mk ['A']) 10 50 0]).storage.buyOrders
          i).Pairwise
        (fun a b => b.price < a.price ∨ (a.price = b.price ∧ a.timestamp ≤ b.timestamp)) ∧
      ((runOps initialState
        [EngineOp.submit OrderType.buy (String.mk ['A']) 10 50 0]).storage.sellOrders
          i).Pairwise
        (fun a b => a.price < b.price ∨ (a.price = b.price ∧ a.timestamp ≤ b.timestamp)) :=
  ⟨⟨[EngineOp.submit OrderType.buy (String.mk ['A']) 10 50 0], rfl⟩,
    c6_book_sortedness _
      ⟨[EngineOp.submit OrderType.buy (String.mk ['A']) 10 50 0], rfl⟩⟩

/-- C7: in every reachable state, every order in the book satisfies the
lifecycle invariants — `0 ≤ remainingQuantity ≤ quantity`, status `Filled`
(`matched`) exactly when `remainingQuantity = 0`, and status
`PartiallyFilled` only with `0 < remainingQuantity < quantity` — and across
any further public engine operation the remaining quantity of any order (an
order of the new state matched by id with an order of the old state) never
increases. -/
theorem c7_order_lifecycle (s : EngineState) (h : Reachable s) :
    (∀ o, InBooks s.storage o →
      0 ≤ o.remainingQuantity ∧ o.remainingQuantity ≤ o.quantity ∧
      (o.status = .matched ↔ o.remainingQuantity = 0) ∧
      (o.status = .partialFill →
        0 < o.remainingQuantity ∧ o.remainingQuantity < o.quantity)) ∧
    (∀ op, RemMono s (applyOp s op)) := by
  have hinv := reachable_inv s h
  exact ⟨fun o ho => hinv.ordOk o ho, fun op => (applyOp_inv s op hinv).2⟩

/-- C7 witness: the lifecycle invariants hold at a concrete reachable state. -/
theorem c7_order_lifecycle_witness :
    Reachable (runOps initialState
      [EngineOp.submit OrderType.buy (String.mk ['A']) 10 50 0]) ∧
    ((∀ o, InBooks (runOps initialState
        [EngineOp.submit OrderType.buy (String.mk ['A']) 10 50 0]).storage o →
      0 ≤ o.remainingQuantity ∧ o.remainingQuantity ≤ o.quantity ∧
      (o.status = .matched ↔ o.remainingQuantity = 0) ∧
      (o.status = .partialFill →
        0 < o.remainingQuantity ∧ o.remainingQuantity < o.quantity)) ∧
    (∀ op, RemMono (runOps initialState
        [EngineOp.submit OrderType.buy (String.mk ['A']) 10 50 0])
      (applyOp (runOps initialState
        [EngineOp.submit OrderType.buy (String.mk ['A']) 10 50 0]) op))) :=
  ⟨⟨[EngineOp.submit OrderType.buy (String.mk ['A']) 10 50 0], rfl⟩,
    c7_order_lifecycle _
      ⟨[EngineOp.submit OrderType.buy (String.mk ['A']) 10 50 0], rfl⟩⟩

/-- C1 witness: a buy for 10 shares of `"A"` at price 50 submitted to the
fresh engine finds an empty ask book and is settled by the synthetic
fallback. -/
theorem c1_synthetic_fallback_witness :
    ∃ o tx s2,
      TradingEngine.addOrder initialState OrderType.buy (String.mk ['A']) 10 50 0 =
        (.ok o, s2) ∧
      o.id = .ord 0 initialState.orderCounter ∧
      o.status = .matched ∧
      o.remainingQuantity = 0 ∧
      o.quantity = 10 ∧
      s2.transactions = initialState.transactions ++ [tx] ∧
      tx.quantity = 10 ∧ tx.price = 50 ∧ tx.tickerSymbol = String.mk ['A'] ∧
      (OrderType.buy = OrderType.buy →
        tx.buyOrderId = o.id ∧ tx.sellOrderId = .autoFilled) ∧
      (OrderType.buy = OrderType.sell →
        tx.buyOrderId = .market ∧ tx.sellOrderId = o.id) ∧
      s2.portfolioPositions =
        (TradingEngine.updatePortfolio initialState tx).portfolioPositions :=
  c1_synthetic_fallback initialState OrderType.buy (String.mk ['A']) 10 50 0
    ({ buyOrders := fun j => if j = 0 then [TradingEngine.newOrderOf initialState OrderType.buy (String.mk ['A']) 10 50 0] else [], sellOrders := fun _ => [], tickerToIndex := [(String.mk ['A'], 0)], nextIndex := 1 } : OrderStorage)
    (by decide) (by decide) (by decide) (fun hc => absurd hc (by decide)) rfl rfl rfl

/-- C2 (amended) witness: the order settled by the fallback is still present
in the buy book, filled with remaining quantity zero. -/
theorem c2_amended_order_remains_witness :
    ∃ o s2,
      TradingEngine.addOrder initialState OrderType.buy (String.mk ['A']) 10 50 0 =
        (.ok o, s2) ∧
      ∃ e, e ∈ (if OrderType.buy = OrderType.buy
            then (OrderStorage.getBuyOrders s2.storage (String.mk ['A'])).1
            else (OrderStorage.getSellOrders s2.storage (String.mk ['A'])).1) ∧
        e.id = o.id ∧ e.status = .matched ∧ e.remainingQuantity = 0 :=
  c2_amended_order_remains initialState OrderType.buy (String.mk ['A']) 10 50 0
    ({ buyOrders := fun j => if j = 0 then [TradingEngine.newOrderOf initialState OrderType.buy (String.mk ['A']) 10 50 0] else [], sellOrders := fun _ => [], tickerToIndex := [(String.mk ['A'], 0)], nextIndex := 1 } : OrderStorage)
    (by decide) (by decide) (by decide) (fun hc => absurd hc (by decide)) rfl rfl rfl

/-- C3 witness: a blank symbol is rejected as `InvalidOrderParameters` and
the state is returned unchanged. -/
theorem c3_validation_rejection_witness :
    (TradingEngine.addOrder initialState OrderType.buy (String.mk []) 5 10 0).1 =
      .error .invalidOrderParameters ∧
    (TradingEngine.addOrder initialState OrderType.buy (String.mk []) 5 10 0).2 =
      initialState :=
  ⟨(c3_validation_rejection initialState OrderType.buy (String.mk []) 5 10 0).1.mpr
      (Or.inr (Or.inr (by decide))),
    (c3_validation_rejection initialState OrderType.buy (String.mk []) 5 10 0).2.2
      (Or.inl ((c3_validation_rejection initialState OrderType.buy
        (String.mk []) 5 10 0).1.mpr (Or.inr (Or.inr (by decide)))))⟩

/-- C4 witness: a buy at 50 crossing a resting ask at 40 (the resting order
being older) produces a transaction priced at the resting order's 40. -/
theorem c4_crossing_price_witness :
    ∃ t later,
      (TradingEngine.matchLoop 2
        [({ id := OrderRef.ord 0 0, type := OrderType.sell, tickerSymbol := String.mk ['A'], quantity := 5, price := 40, timestamp := 0, status := OrderStatus.pending, remainingQuantity := 5 } : Order)]
        ({ id := OrderRef.ord 1 1, type := OrderType.buy, tickerSymbol := String.mk ['A'], quantity := 5, price := 50, timestamp := 1, status := OrderStatus.pending, remainingQuantity := 5 } : Order)
        ({ storage := { buyOrders := fun _ => [], sellOrders := fun j => if j = 0 then [({ id := OrderRef.ord 0 0, type := OrderType.sell, tickerSymbol := String.mk ['A'], quantity := 5, price := 40, timestamp := 0, status := OrderStatus.pending, remainingQuantity := 5 } : Order)] else [], tickerToIndex := [(String.mk ['A'], 0)], nextIndex := 1 }, transactions := [], orderCounter := 2, transactionCounter := 0, portfolioPositions := fun _ => none } : EngineState)
        []).txs = [] ++ t :: later ∧
      ((0 : Nat) < 1 → t.price = 40) ∧
      ((1 : Nat) < 0 → t.price = 50) ∧
      ((1 : Nat) = 0 → t.price = 50) :=
  c4_crossing_price 2 _ [] _ _ [] 0 (by decide) (by decide) (by decide)

/-- C5 witness: a synthetic buy transaction for 5 shares at 30 against the
empty ledger creates a position of 5 shares at average cost 30, marked at
the transaction price. -/
theorem c5_ledger_update_witness :
    (TradingEngine.isBuyTransaction initialState.storage
      ({ id := (0, 0), buyOrderId := OrderRef.ord 0 0, sellOrderId := OrderRef.autoFilled, tickerSymbol := String.mk ['A'], quantity := 5, price := 30, timestamp := 0 } : Transaction)).1 = true ∧
    (TradingEngine.updatePortfolio initialState
      ({ id := (0, 0), buyOrderId := OrderRef.ord 0 0, sellOrderId := OrderRef.autoFilled, tickerSymbol := String.mk ['A'], quantity := 5, price := 30, timestamp := 0 } : Transaction)).portfolioPositions (String.mk ['A']) =
      some { positionOrNew initialState ({ id := (0, 0), buyOrderId := OrderRef.ord 0 0, sellOrderId := OrderRef.autoFilled, tickerSymbol := String.mk ['A'], quantity := 5, price := 30, timestamp := 0 } : Transaction) with shares := (positionOrNew initialState ({ id := (0, 0), buyOrderId := OrderRef.ord 0 0, sellOrderId := OrderRef.autoFilled, tickerSymbol := String.mk ['A'], quantity := 5, price := 30, timestamp := 0 } : Transaction)).shares + 5, averageBuyPrice := ((positionOrNew initialState ({ id := (0, 0), buyOrderId := OrderRef.ord 0 0, sellOrderId := OrderRef.autoFilled, tickerSymbol := String.mk ['A'], quantity := 5, price := 30, timestamp := 0 } : Transaction)).shares * (positionOrNew initialState ({ id := (0, 0), buyOrderId := OrderRef.ord 0 0, sellOrderId := OrderRef.autoFilled, tickerSymbol := String.mk ['A'], quantity := 5, price := 30, timestamp := 0 } : Transaction)).averageBuyPrice + 5 * 30) / ((positionOrNew initialState ({ id := (0, 0), buyOrderId := OrderRef.ord 0 0, sellOrderId := OrderRef.autoFilled, tickerSymbol := String.mk ['A'], quantity := 5, price := 30, timestamp := 0 } : Transaction)).shares + 5), currentValue := 30 } :=
  ⟨rfl, (c5_ledger_update initialState
    ({ id := (0, 0), buyOrderId := OrderRef.ord 0 0, sellOrderId := OrderRef.autoFilled, tickerSymbol := String.mk ['A'], quantity := 5, price := 30, timestamp := 0 } : Transaction)).1 rfl⟩

/-- C8 witness: the recency query instantiated at the fresh engine. -/
theorem c8_recent_transactions_witness :
    (TradingEngine.getRecentTransactions initialState 0).length ≤ 0 ∧
    TradingEngine.getRecentTransactions initialState 0 =
      (specRecentArrangement initialState.transactions).take 0 ∧
    List.Sorted TradingEngine.txDescLE
      (TradingEngine.getRecentTransactions initialState 0) ∧
    ∃ rest, initialState.transactions.Perm
        (TradingEngine.getRecentTransactions initialState 0 ++ rest) ∧
      ∀ a ∈ TradingEngine.getRecentTransactions initialState 0, ∀ b ∈ rest,
        b.timestamp ≤ a.timestamp :=
  c8_recent_transactions initialState 0

/-- C9 witness: registering the two symbols `"A"` and `"B"`. -/
theorem c9_symbol_registry_witness :
    ((registerAll initialStorage [String.mk ['A'], String.mk ['B']]).getAllTickers =
      [String.mk ['A'], String.mk ['B']]) ∧
    (∀ k, (h : k < ([String.mk ['A'], String.mk ['B']] : List String).length) →
      ((registerAll initialStorage
        (([String.mk ['A'], String.mk ['B']] : List String).take k)).getTickerIndex
          ([String.mk ['A'], String.mk ['B']] : List String)[k]).1 = .ok k) ∧
    (∀ k, (h : k < ([String.mk ['A'], String.mk ['B']] : List String).length) →
      (registerAll initialStorage [String.mk ['A'], String.mk ['B']]).getTickerIndex
          ([String.mk ['A'], String.mk ['B']] : List String)[k] =
        (.ok k, registerAll initialStorage [String.mk ['A'], String.mk ['B']])) ∧
    (∀ s0, s0 ∉ ([String.mk ['A'], String.mk ['B']] : List String) →
      ([String.mk ['A'], String.mk ['B']] : List String).length = MAX_TICKERS →
      ((registerAll initialStorage [String.mk ['A'], String.mk ['B']]).getTickerIndex
        s0).1 = .error ()) :=
  c9_symbol_registry [String.mk ['A'], String.mk ['B']] (by decide) (by decide)

/-- C10 witness: querying the fresh storage for the unseen symbol `"A"`. -/
theorem c10_query_registers_symbol_witness :
    (initialStorage.nextIndex < MAX_TICKERS →
      (initialStorage.getBuyOrders (String.mk ['A'])).2.getAllTickers =
        initialStorage.getAllTickers ++ [String.mk ['A']] ∧
      (initialStorage.getSellOrders (String.mk ['A'])).2.getAllTickers =
        initialStorage.getAllTickers ++ [String.mk ['A']] ∧
      (initialStorage.getBuyOrders (String.mk ['A'])).2.nextIndex =
        initialStorage.nextIndex + 1 ∧
      lookupTicker (initialStorage.getBuyOrders (String.mk ['A'])).2.tickerToIndex
        (String.mk ['A']) = some initialStorage.nextIndex) ∧
    (MAX_TICKERS ≤ initialStorage.nextIndex →
      initialStorage.getBuyOrders (String.mk ['A']) = ([], initialStorage) ∧
      initialStorage.getSellOrders (String.mk ['A']) = ([], initialStorage)) :=
  c10_query_registers_symbol initialStorage (String.mk ['A']) rfl

end StockTrade
